import Mathlib

/-!
# Verification of mcp-taproot (`src/server.ts`)

Shallow embedding of the two MCP tools `generate_address` and
`sign_transaction` from `src/server.ts`, together with the cryptographic /
encoding pipeline they delegate to.  The source file itself contains the
hex validator (`validateHex`), the tool handlers (argument flow, the order
of the fallible steps, and the try/catch that turns every thrown error
into a structured `isError` result).  The WIF importer, the bech32 address
encoder and the PSBT engine live in the external libraries
`@scure/btc-signer` / `@scure/base` / `@noble/curves`, whose code is not
part of this repository; those parts are modelled from the specification
(each such definition carries a doc comment starting
`Modelled from the spec:`).

Bytes are modelled as `List Nat` with every element `< 256`; 32-bit
machine arithmetic is `Nat` arithmetic reduced `% 2^32`.
-/

namespace McpTaproot

/-- A byte string: a list of naturals, each intended to be `< 256`. -/
abbrev Bytes := List Nat

/-- The error taxonomy of the spec (§7): every failure a tool reports is
one of these structured errors. -/
inductive SignError where
  | invalidEncoding
  | invalidLength
  | invalidChecksum
  | networkMismatch
  | invalidPrivateKey
  | malformedContainer
  | noMatchingInput
  | encodingFailure
  deriving DecidableEq, Repr

/-- The structured result a tool call returns: either a success payload
(the generated address, or the signed PSBT hex) or a structured error.
The surrounding MCP message text (`"Generated Address: ..."`) is
transport presentation and out of core scope (spec §1). -/
inductive ToolResult where
  | success (payload : String)
  | failure (e : SignError)
  deriving DecidableEq, Repr

/-- Equality of `Except` results is decidable componentwise, so concrete
pipeline runs can be checked by evaluation. -/
instance {ε α : Type} [DecidableEq ε] [DecidableEq α] : DecidableEq (Except ε α) := fun x y =>
  match x, y with
  | .ok a, .ok b =>
    if h : a = b then .isTrue (by rw [h]) else .isFalse fun he => h (Except.ok.inj he)
  | .error a, .error b =>
    if h : a = b then .isTrue (by rw [h]) else .isFalse fun he => h (Except.error.inj he)
  | .ok _, .error _ => .isFalse fun he => Except.noConfusion he
  | .error _, .ok _ => .isFalse fun he => Except.noConfusion he

/-! ## Hex codec (`validateHex` is from `src/server.ts` lines 18–23) -/

/-- A hex digit per the source's regex `/^[0-9a-f]*$/i`. -/
def isHexDigitCh (c : Char) : Bool :=
  ('0' ≤ c && c ≤ '9') || ('a' ≤ c && c ≤ 'f') || ('A' ≤ c && c ≤ 'F')

/-- `validateHex` from `src/server.ts`: rejects odd length, a mismatched
expected length (when one is supplied and non-zero, mirroring the
JavaScript truthiness test `if (length && ...)`), and any character
outside `[0-9a-fA-F]`.  The empty string passes: its length is even and
the starred regex matches it. -/
def validateHex (hexStr : String) (length? : Option Nat) : Except SignError Unit :=
  if hexStr.length % 2 ≠ 0 then .error .invalidEncoding
  else if (match length? with
           | some n => n ≠ 0 && hexStr.length ≠ n * 2
           | none => false) then .error .invalidLength
  else if ¬ hexStr.data.all isHexDigitCh then .error .invalidEncoding
  else .ok ()

/-- Value of one hex digit (callers guarantee `isHexDigitCh`). -/
def hexDigitVal (c : Char) : Nat :=
  if '0' ≤ c && c ≤ '9' then c.toNat - '0'.toNat
  else if 'a' ≤ c && c ≤ 'f' then c.toNat - 'a'.toNat + 10
  else if 'A' ≤ c && c ≤ 'F' then c.toNat - 'A'.toNat + 10
  else 0

/-- Modelled from the spec (§4.1): `decode(text) -> bytes` for a hex
string already validated by `validateHex` (the library's `hex.decode`
from `@scure/base` is not under `src/`).  Pairs of digits become bytes. -/
def hexDecode (s : String) : Bytes :=
  go s.data
where
  /-- Consume two hex digits per byte. -/
  go : List Char → Bytes
    | c1 :: c2 :: rest => (hexDigitVal c1 * 16 + hexDigitVal c2) :: go rest
    | _ => []

/-- The sixteen lowercase hex digits, by code point: `0`–`9` then
`a`–`f`. -/
def hexChars : List Char :=
  (List.range 16).map fun i => Char.ofNat (if i < 10 then 48 + i else 87 + i)

/-- Modelled from the spec (§4.1): `encode(bytes) -> text`, total,
lowercase output (the library's `hex.encode` is not under `src/`). -/
def hexEncode (bs : Bytes) : String :=
  ⟨bs.foldr (fun b acc => hexChars.getD (b / 16 % 16) '0' :: hexChars.getD (b % 16) '0' :: acc) []⟩

/-! ## SHA-256 (32-bit words as `Nat % 2^32`)

Modelled from the spec (§4.2): the WIF importer's checksum is the double
SHA-256 of the payload; the hash implementation lives in the external
library, so it is reproduced here from the standard (FIPS 180-4). -/

/-- `2^32`, the modulus of 32-bit word arithmetic. -/
def M32 : Nat := 4294967296

/-- Rotate a 32-bit word right by `n`. -/
def rotr (n x : Nat) : Nat := ((x >>> n) ||| (x <<< (32 - n))) % M32

/-- SHA-256 Σ₀. -/
def bigS0 (x : Nat) : Nat := rotr 2 x ^^^ rotr 13 x ^^^ rotr 22 x

/-- SHA-256 Σ₁. -/
def bigS1 (x : Nat) : Nat := rotr 6 x ^^^ rotr 11 x ^^^ rotr 25 x

/-- SHA-256 σ₀. -/
def smallS0 (x : Nat) : Nat := rotr 7 x ^^^ rotr 18 x ^^^ (x >>> 3)

/-- SHA-256 σ₁. -/
def smallS1 (x : Nat) : Nat := rotr 17 x ^^^ rotr 19 x ^^^ (x >>> 10)

/-- SHA-256 `Ch` (complement via xor with the all-ones 32-bit word). -/
def chF (x y z : Nat) : Nat := (x &&& y) ^^^ ((x ^^^ 4294967295) &&& z)

/-- SHA-256 `Maj`. -/
def majF (x y z : Nat) : Nat := (x &&& y) ^^^ (x &&& z) ^^^ (y &&& z)

/-- The 64 SHA-256 round constants (FIPS 180-4 §4.2.2, written in
decimal). -/
def sha256K : List Nat :=
  [1116352408, 1899447441, 3049323471, 3921009573, 961987163, 1508970993,
   2453635748, 2870763221, 3624381080, 310598401, 607225278, 1426881987,
   1925078388, 2162078206, 2614888103, 3248222580, 3835390401, 4022224774,
   264347078, 604807628, 770255983, 1249150122, 1555081692, 1996064986,
   2554220882, 2821834349, 2952996808, 3210313671, 3336571891, 3584528711,
   113926993, 338241895, 666307205, 773529912, 1294757372, 1396182291,
   1695183700, 1986661051, 2177026350, 2456956037, 2730485921, 2820302411,
   3259730800, 3345764771, 3516065817, 3600352804, 4094571909, 275423344,
   430227734, 506948616, 659060556, 883997877, 958139571, 1322822218,
   1537002063, 1747873779, 1955562222, 2024104815, 2227730452, 2361852424,
   2428436474, 2756734187, 3204031479, 3329325298]

/-- The SHA-256 initial hash value (FIPS 180-4 §5.3.3, written in
decimal). -/
def sha256H0 : List Nat :=
  [1779033703, 3144134277, 1013904242, 2773480762,
   1359893119, 2600822924, 528734635, 1541459225]

/-- Big-endian bytes of `n`, exactly `width` bytes (high bits beyond the
width are dropped). -/
def beBytesFixed : Nat → Nat → Bytes
  | 0, _ => []
  | w + 1, n => beBytesFixed w (n / 256) ++ [n % 256]

/-- Big-endian interpretation of a byte string as a natural number. -/
def beNat (bs : Bytes) : Nat := bs.foldl (fun a b => a * 256 + b) 0

/-- Split a list into chunks of `k` (fuel-driven so that it reduces in
the kernel). -/
def chunksF {α : Type} (k : Nat) : Nat → List α → List (List α)
  | _, [] => []
  | 0, _ => []
  | fuel + 1, bs => bs.take k :: chunksF k fuel (bs.drop k)

/-- Split a list into chunks of `k`. -/
def chunks {α : Type} (k : Nat) (bs : List α) : List (List α) := chunksF k bs.length bs

/-- SHA-256 padding: `0x80`, zeros to 56 mod 64, then the 64-bit
big-endian bit length. -/
def shaPad (msg : Bytes) : Bytes :=
  msg ++ [0x80] ++ List.replicate ((64 - (msg.length + 9) % 64) % 64) 0
      ++ beBytesFixed 8 (8 * msg.length)

/-- Extend the 16 message words by `fuel` scheduled words. -/
def schedF : Nat → List Nat → List Nat
  | 0, ws => ws
  | fuel + 1, ws =>
    let t := ws.length
    let w := (smallS1 (ws.getD (t - 2) 0) + ws.getD (t - 7) 0
              + smallS0 (ws.getD (t - 15) 0) + ws.getD (t - 16) 0) % M32
    schedF fuel (ws ++ [w])

/-- One SHA-256 round on the 8-word state, given `K[t] + W[t]`. -/
def sha256Round (st : List Nat) (kw : Nat) : List Nat :=
  match st with
  | [a, b, c, d, e, f, g, h] =>
    let t1 := (h + bigS1 e + chF e f g + kw) % M32
    let t2 := (bigS0 a + majF a b c) % M32
    [(t1 + t2) % M32, a, b, c, (d + t1) % M32, e, f, g]
  | other => other

/-- Compress one 64-byte block into the running 8-word state. -/
def sha256Compress (st : List Nat) (block : Bytes) : List Nat :=
  let ws := schedF 48 ((chunks 4 block).map beNat)
  let st' := (sha256K.zip ws).foldl (fun s kw => sha256Round s ((kw.1 + kw.2) % M32)) st
  (st.zip st').map (fun p => (p.1 + p.2) % M32)

/-- SHA-256 of a byte string, as 32 bytes. -/
def sha256 (msg : Bytes) : Bytes :=
  (((chunks 64 (shaPad msg)).foldl sha256Compress sha256H0).map (beBytesFixed 4)).flatten

/-- Double SHA-256, the base58-check checksum hash (spec §4.2). -/
def dsha256 (b : Bytes) : Bytes := sha256 (sha256 b)

/-! ## Base58 and WIF import

Modelled from the spec (§4.2): the WIF importer lives in
`@scure/btc-signer` (`btc.WIF(network).decode`), which is not under
`src/`; the steps below follow the spec's contract verbatim:
base58-check decode with the double-SHA-256 checksum
(`InvalidChecksum`), version-byte check against the network's WIF prefix
(`NetworkMismatch`), stripping of the trailing `0x01` compression flag,
and the scalar range check `0 < key < curveOrder`
(`InvalidPrivateKey`). -/

/-- The base58 digit alphabet. -/
def base58Alphabet : List Char :=
  "123456789ABCDEFGHJKLMNPQRSTUVWXYZabcdefghijkmnopqrstuvwxyz".data

/-- Value of one base58 digit, `none` for a character outside the
alphabet. -/
def base58DigitVal (c : Char) : Option Nat := base58Alphabet.findIdx? (· = c)

/-- Minimal big-endian byte representation of `n` (fuel-driven; the fuel
bounds the number of digits). -/
def natToBeBytesF : Nat → Nat → Bytes
  | 0, _ => []
  | fuel + 1, n => if n = 0 then [] else natToBeBytesF fuel (n / 256) ++ [n % 256]

/-- Minimal big-endian byte representation of `n`. -/
def natToBeBytes (n : Nat) : Bytes := natToBeBytesF n n

/-- Number of leading `'1'` digits (each encodes one leading zero
byte). -/
def countLeading1 : List Char → Nat
  | '1' :: rest => countLeading1 rest + 1
  | _ => 0

/-- Modelled from the spec (§4.2): raw base58 decode — interpret the
digits in base 58 and restore one zero byte per leading `'1'`;
`none` when a character is outside the alphabet. -/
def base58Decode (s : String) : Option Bytes :=
  (s.data.foldl (fun acc c => acc.bind fun n => (base58DigitVal c).map fun v => n * 58 + v)
      (some 0)).map
    fun n => List.replicate (countLeading1 s.data) 0 ++ natToBeBytes n

/-- The order of the secp256k1 group: private keys must lie strictly
between 0 and this value (spec §3, §4.2). -/
def secpOrder : Nat :=
  0xFFFFFFFFFFFFFFFFFFFFFFFFFFFFFFFEBAAEDCE6AF48A03BBFD25E8CD0364141

/-- The WIF version byte expected for the selected network: `0x80` for
mainnet, `0xEF` for testnet (spec §3, §4.2). -/
def wifVersion (testnet : Bool) : Nat := if testnet then 0xEF else 0x80

/-- Modelled from the spec (§4.2): `importWif(text, network)`.
Base58-check decode (fails `InvalidChecksum` when the trailing 4-byte
checksum does not equal the first 4 bytes of the double SHA-256 of the
payload, or when the text is not base58 at all), version-byte check
against the network (`NetworkMismatch`), compression-flag stripping, and
the scalar range check (`InvalidPrivateKey`).  Returns the 32 private
key bytes. -/
def importWif (s : String) (testnet : Bool) : Except SignError Bytes :=
  match base58Decode s with
  | none => .error .invalidChecksum
  | some full =>
    if full.length < 5 then .error .invalidChecksum
    else
      let payload := full.take (full.length - 4)
      let checksum := full.drop (full.length - 4)
      if checksum ≠ (dsha256 payload).take 4 then .error .invalidChecksum
      else
        match payload with
        | [] => .error .invalidChecksum
        | v :: rest =>
          if v ≠ wifVersion testnet then .error .networkMismatch
          else
            let keyBytes := if rest.length = 33 && rest.getLast? = some 1
                            then rest.take 32 else rest
            if keyBytes.length ≠ 32 then .error .invalidPrivateKey
            else if beNat keyBytes = 0 || secpOrder ≤ beNat keyBytes then
              .error .invalidPrivateKey
            else .ok keyBytes

/-! ## Bech32 segwit address encoding

Modelled from the spec (§4.4): the address encoder is the library's
`btc.p2wpkh(publicKey, network).address`, not under `src/`; the bech32
algorithm below follows BIP173 as the spec directs (human-readable part
`bc`/`tb`, witness version 0, all-lowercase output). -/

/-- The 32-character bech32 data alphabet. -/
def bech32Charset : List Char := "qpzry9x8gf2tvdw0s3jn54khce6mua7l".data

/-- The bech32 generator constants. -/
def bech32Gen : List Nat := [0x3b6a57b2, 0x26508e6d, 0x1ea119fa, 0x3d4233dd, 0x2a1462b3]

/-- The bech32 polynomial checksum state after absorbing `values`. -/
def bech32Polymod (values : List Nat) : Nat :=
  values.foldl
    (fun chk v =>
      let b := chk >>> 25
      (List.range 5).foldl
        (fun c i => c ^^^ (if (b >>> i) &&& 1 = 1 then bech32Gen.getD i 0 else 0))
        (((chk &&& 0x1ffffff) <<< 5) ^^^ v))
    1

/-- The checksum expansion of the human-readable part. -/
def hrpExpand (hrp : List Char) : List Nat :=
  hrp.map (fun c => c.toNat >>> 5) ++ [0] ++ hrp.map (fun c => c.toNat &&& 31)

/-- The six bech32 checksum words for `hrp` and `data` (witness version
0 checksum constant 1, per the spec). -/
def bech32CreateChecksum (hrp : List Char) (data : List Nat) : List Nat :=
  let pm := bech32Polymod (hrpExpand hrp ++ data ++ [0, 0, 0, 0, 0, 0]) ^^^ 1
  (List.range 6).map fun i => (pm >>> (5 * (5 - i))) &&& 31

/-- The eight bits of a byte, most significant first. -/
def byteBits (b : Nat) : List Bool := (List.range 8).map fun i => (b >>> (7 - i)) &&& 1 = 1

/-- The value of a big-endian bit group. -/
def bitsVal (bs : List Bool) : Nat := bs.foldl (fun a b => 2 * a + (if b then 1 else 0)) 0

/-- Regroup 8-bit bytes into 5-bit words, padding the final group with
zero bits (BIP173 `convertbits(data, 8, 5, true)`). -/
def toWords (bs : Bytes) : List Nat :=
  let bits := (bs.map byteBits).flatten
  ((chunks 5 (bits ++ List.replicate ((5 - bits.length % 5) % 5) false)).map bitsVal)

/-- A bech32 segwit address: human-readable part, separator `'1'`, then
the witness version and program words followed by the checksum, all
spelled in the bech32 alphabet. -/
def segwitAddress (hrp : List Char) (ver : Nat) (prog : Bytes) : String :=
  let data := ver :: toWords prog
  ⟨hrp ++ '1' :: (data ++ bech32CreateChecksum hrp data).map fun v => bech32Charset.getD v 'q'⟩

/-! ## The PSBT container

Modelled from the spec (§3, §4.5): the PSBT engine is the library's
`btc.Transaction.fromPSBT` / `tx.sign` / `tx.toPSBT`, not under `src/`.
A container is a global key→value map, one map per transaction input and
one per output (BIP174's map-of-maps schema, as §3 describes). -/

/-- One key-typed map of a PSBT container: an ordered list of
(key bytes, value bytes) entries. -/
structure PsbtMap where
  entries : List (Bytes × Bytes)
  deriving DecidableEq, Repr

/-- A parsed PSBT container (spec §3 `PsbtContainer`). -/
structure PsbtContainer where
  globalMap : PsbtMap
  inputs : List PsbtMap
  outputs : List PsbtMap
  deriving DecidableEq, Repr

/-- Little-endian bytes of `n`, exactly `width` bytes. -/
def leBytesFixed : Nat → Nat → Bytes
  | 0, _ => []
  | w + 1, n => n % 256 :: leBytesFixed w (n / 256)

/-- Little-endian interpretation of a byte string. -/
def leNat (bs : Bytes) : Nat := bs.foldr (fun b a => a * 256 + b) 0

/-- Bitcoin CompactSize encoding of a length. -/
def compactSizeEnc (n : Nat) : Bytes :=
  if n < 0xfd then [n]
  else if n < 0x10000 then 0xfd :: leBytesFixed 2 n
  else if n < 0x100000000 then 0xfe :: leBytesFixed 4 n
  else 0xff :: leBytesFixed 8 n

/-- Split off exactly `n` bytes, `none` when the input is shorter
(truncated data). -/
def splitExact (n : Nat) (bs : Bytes) : Option (Bytes × Bytes) :=
  if bs.length < n then none else some (bs.take n, bs.drop n)

/-- Parse a CompactSize length prefix, enforcing Bitcoin's canonical
shortest-form rule: a marker form whose value fits a shorter form is
rejected, so every accepted length has exactly one encoding. -/
def parseCompactSize : Bytes → Option (Nat × Bytes)
  | [] => none
  | b :: rest =>
    if b < 0xfd then some (b, rest)
    else if b = 0xfd then
      (splitExact 2 rest).bind fun p =>
        if leNat p.1 < 0xfd then none else some (leNat p.1, p.2)
    else if b = 0xfe then
      (splitExact 4 rest).bind fun p =>
        if leNat p.1 < 0x10000 then none else some (leNat p.1, p.2)
    else
      (splitExact 8 rest).bind fun p =>
        if leNat p.1 < 0x100000000 then none else some (leNat p.1, p.2)

/-- Parse the key/value entries of one map up to its `0x00` separator
(fuel-driven; the fuel bounds the number of entries). -/
def parseEntriesF : Nat → Bytes → Option (List (Bytes × Bytes) × Bytes)
  | _, [] => none
  | 0, _ => none
  | fuel + 1, bs =>
    match parseCompactSize bs with
    | none => none
    | some (klen, bs1) =>
      if klen = 0 then some ([], bs1)
      else
        match splitExact klen bs1 with
        | none => none
        | some (key, bs2) =>
          match parseCompactSize bs2 with
          | none => none
          | some (vlen, bs3) =>
            match splitExact vlen bs3 with
            | none => none
            | some (val, bs4) =>
              match parseEntriesF fuel bs4 with
              | none => none
              | some (es, rest) => some ((key, val) :: es, rest)

/-- Is `k` among the entry keys? -/
def keyMem (k : Bytes) : List (Bytes × Bytes) → Bool
  | [] => false
  | e :: rest => if e.1 = k then true else keyMem k rest

/-- Does some key occur twice? (BIP174 forbids duplicate keys within one
map; spec §4.5 Parse.) -/
def hasDupKeys : List (Bytes × Bytes) → Bool
  | [] => false
  | e :: rest => keyMem e.1 rest || hasDupKeys rest

/-- Parse one map: its entries up to the separator, rejecting duplicate
keys. -/
def parseMap (bs : Bytes) : Option (PsbtMap × Bytes) :=
  match parseEntriesF bs.length bs with
  | none => none
  | some (es, rest) => if hasDupKeys es then none else some (⟨es⟩, rest)

/-- Parse exactly `n` consecutive maps. -/
def parseMapsN : Nat → Bytes → Option (List PsbtMap × Bytes)
  | 0, bs => some ([], bs)
  | n + 1, bs =>
    match parseMap bs with
    | none => none
    | some (m, r1) =>
      match parseMapsN n r1 with
      | none => none
      | some (ms, r2) => some (m :: ms, r2)

/-- Parse the inputs of a legacy-serialized transaction (outpoint,
scriptSig with length prefix, sequence each), returning each input's
referenced output index (the last 4 outpoint bytes, little-endian). -/
def parseTxInsVouts : Nat → Bytes → Option (List Nat × Bytes)
  | 0, bs => some ([], bs)
  | n + 1, bs => do
    let (outpoint, bs1) ← splitExact 36 bs
    let (slen, bs2) ← parseCompactSize bs1
    let (_, bs3) ← splitExact slen bs2
    let (_, bs4) ← splitExact 4 bs3
    let (vs, bs5) ← parseTxInsVouts n bs4
    some (leNat (outpoint.drop 32) :: vs, bs5)

/-- Parse the outputs of a legacy-serialized transaction (amount,
script with length prefix each), returning each output's script. -/
def parseTxOutsScripts : Nat → Bytes → Option (List Bytes × Bytes)
  | 0, bs => some ([], bs)
  | n + 1, bs => do
    let (_, bs1) ← splitExact 8 bs
    let (slen, bs2) ← parseCompactSize bs1
    let (script, bs3) ← splitExact slen bs2
    let (ss, bs4) ← parseTxOutsScripts n bs3
    some (script :: ss, bs4)

/-- Parse a whole legacy-serialized transaction (version, inputs,
outputs, locktime; the whole value must be consumed), returning the
inputs' referenced output indices and the outputs' scripts — the data
Sign needs from the unsigned transaction and from a full previous
transaction (spec §4.5). -/
def txSpendData (bs : Bytes) : Option (List Nat × List Bytes) := do
  let (_, bs1) ← splitExact 4 bs
  let (nIn, bs2) ← parseCompactSize bs1
  let (vouts, bs3) ← parseTxInsVouts nIn bs2
  let (nOut, bs4) ← parseCompactSize bs3
  let (scripts, bs5) ← parseTxOutsScripts nOut bs4
  let (_, bs6) ← splitExact 4 bs5
  if bs6 = [] then some (vouts, scripts) else none

/-- Input and output counts of the container's unsigned transaction
(serialized without witness data, per BIP174). -/
def txCounts (bs : Bytes) : Option (Nat × Nat) :=
  (txSpendData bs).map fun sd => (sd.1.length, sd.2.length)

/-- The five PSBT magic bytes `psbt\xff`. -/
def psbtMagic : Bytes := [0x70, 0x73, 0x62, 0x74, 0xff]

/-- First value stored under key `k`, if any. -/
def lookupKey (k : Bytes) : List (Bytes × Bytes) → Option Bytes
  | [] => none
  | e :: rest => if e.1 = k then some e.2 else lookupKey k rest

/-- First value stored under key `k` in a map. -/
def PsbtMap.lookup (m : PsbtMap) (k : Bytes) : Option Bytes := lookupKey k m.entries

/-- Modelled from the spec (§4.5 Parse): `Transaction.fromPSBT` —
deserialize the byte container into global/input/output maps, failing
with `MalformedContainer` on truncated data, duplicate keys within one
map, or an unsupported global version.  The split between input and
output maps is the input/output count of the unsigned transaction held
under global key `0x00`. -/
def fromPSBT (bs : Bytes) : Except SignError PsbtContainer :=
  if bs.take 5 ≠ psbtMagic then .error .malformedContainer
  else
    match (match parseMap (bs.drop 5) with
      | none => none
      | some (g, r1) =>
        match g.lookup [0x00] with
        | none => none
        | some tx =>
          match txCounts tx with
          | none => none
          | some (nIn, nOut) =>
            match parseMapsN nIn r1 with
            | none => none
            | some (ins, r2) =>
              match parseMapsN nOut r2 with
              | none => none
              | some (outs, r3) =>
                if r3 = [] then some (PsbtContainer.mk g ins outs)
                else none : Option PsbtContainer) with
    | none => .error .malformedContainer
    | some c =>
      match c.globalMap.lookup [0xFB] with
      | some v => if v ≠ [0, 0, 0, 0] then .error .malformedContainer else .ok c
      | none => .ok c

/-- Serialize one entry: CompactSize key length, key, CompactSize value
length, value. -/
def serEntry (e : Bytes × Bytes) : Bytes :=
  compactSizeEnc e.1.length ++ e.1 ++ compactSizeEnc e.2.length ++ e.2

/-- Serialize one map: its entries followed by the `0x00` separator. -/
def serMap (m : PsbtMap) : Bytes := (m.entries.map serEntry).flatten ++ [0]

/-- Modelled from the spec (§4.5 Serialize): `tx.toPSBT` — magic bytes,
then the global map, the input maps and the output maps in order; a map
that was not touched serializes to exactly the same bytes. -/
def toPSBT (c : PsbtContainer) : Bytes :=
  psbtMagic ++ serMap c.globalMap ++ (c.inputs.map serMap).flatten
    ++ (c.outputs.map serMap).flatten

/-- Well-formedness of one map, exactly as parsing guarantees it and
re-parsing its serialization requires it: every key is nonempty, key
and value lengths are CompactSize-representable, all bytes are bytes,
and no key repeats. -/
def WFMap (m : PsbtMap) : Prop :=
  (∀ e ∈ m.entries,
      e.1 ≠ [] ∧ e.1.length < 2 ^ 64 ∧ e.2.length < 2 ^ 64
        ∧ (∀ b ∈ e.1, b < 256) ∧ (∀ b ∈ e.2, b < 256))
    ∧ hasDupKeys m.entries = false

/-- Well-formedness of a container: every map is well-formed, the
global map holds an unsigned transaction whose input and output counts
equal the numbers of input and output maps, and the global version, if
present, is the supported one. -/
def WFContainer (c : PsbtContainer) : Prop :=
  WFMap c.globalMap ∧ (∀ m ∈ c.inputs, WFMap m) ∧ (∀ m ∈ c.outputs, WFMap m)
    ∧ (∃ tx, c.globalMap.lookup [0x00] = some tx
        ∧ txCounts tx = some (c.inputs.length, c.outputs.length))
    ∧ (c.globalMap.lookup [0xFB] = none ∨ c.globalMap.lookup [0xFB] = some [0, 0, 0, 0])

/-! ## The cryptographic primitives and the signing engine -/

/-- Modelled from the spec (§4.3–§4.5): the cryptographic primitives the
engine delegates to — compressed public key derivation by secp256k1
scalar multiplication (§4.3), `hash160 = RIPEMD160 ∘ SHA256` (§4.4), the
BIP143 signature hash (§4.5), and ECDSA signing with deterministic
RFC6979 nonces, DER-encoded (§4.5).  Their implementations live in
`@noble/curves` / `@scure/btc-signer`, outside `src/`; they are kept as
parameters constrained by the contracts the spec states (`hash160`
always yields 20 bytes; determinism holds because each field is a
function).  Every theorem below holds for every instance. -/
structure Crypto where
  derivePublicKey : Bytes → Bytes
  hash160 : Bytes → Bytes
  computeSighash : PsbtContainer → Nat → Bytes
  signDer : Bytes → Bytes → Bytes
  hash160_length : ∀ b, (hash160 b).length = 20
  derivePublicKey_length : ∀ b, (derivePublicKey b).length = 33
  derivePublicKey_bytes : ∀ b, ∀ x ∈ derivePublicKey b, x < 256
  signDer_length : ∀ k h, (signDer k h).length ≤ 72
  signDer_bytes : ∀ k h, ∀ x ∈ signDer k h, x < 256

/-- The P2WPKH scriptPubKey for a 20-byte hash: `OP_0 PUSH20 hash`
(spec §3, §4.4). -/
def p2wpkhScript (h : Bytes) : Bytes := 0x00 :: 0x14 :: h

/-- The referenced output index (outpoint vout) of input `i` of the
container's unsigned transaction (global key `0x00`). -/
def inputVout (c : PsbtContainer) (i : Nat) : Option Nat := do
  let tx ← c.globalMap.lookup [0x00]
  let (sd : List Nat × List Bytes) ← txSpendData tx
  sd.1.get? i

/-- The script of output `vout` of a full previous transaction carried
in a non-witness-UTXO entry. -/
def prevTxScript (prevTx : Bytes) (vout : Nat) : Option Bytes := do
  let (sd : List Nat × List Bytes) ← txSpendData prevTx
  sd.2.get? vout

/-- Modelled from the spec (§4.5 Sign, §3): the spent output's script of
input `i` — from the embedded witness UTXO (key type `0x01`, value =
8-byte amount, script length, script) when present, or else from the
full previous transaction (non-witness UTXO, key type `0x00`), selecting
the output the unsigned transaction's outpoint for input `i` names. -/
def spentScript (c : PsbtContainer) (i : Nat) (m : PsbtMap) : Option Bytes :=
  match m.lookup [0x01] with
  | some v => do
    let (amtRest : Bytes × Bytes) ← splitExact 8 v
    let (slen, r2) ← parseCompactSize amtRest.2
    let (script, r3) ← splitExact slen r2
    if r3 = [] then some script else none
  | none => do
    let prevTx ← m.lookup [0x00]
    let vout ← inputVout c i
    prevTxScript prevTx vout

/-- The sighash-type byte appended to a signature: the input's sighash
type entry (key type `0x03`) when present, else `SIGHASH_ALL = 0x01`
(spec §4.5). -/
def sighashByte (m : PsbtMap) : Nat :=
  match m.lookup [0x03] with
  | some v => leNat v % 256
  | none => 1

/-- The partial-signature map key for a compressed public key: key type
`0x02` followed by the key bytes (BIP174 `PSBT_IN_PARTIAL_SIG`). -/
def partialSigKey (pub : Bytes) : Bytes := 0x02 :: pub

/-- Modelled from the spec (§4.5 Sign): insert a partial-signature
record keyed by the compressed public key — and do not overwrite an
existing partial signature for the same public key. -/
def insertPartialSig (pub sig : Bytes) (m : PsbtMap) : PsbtMap :=
  if keyMem (partialSigKey pub) m.entries then m
  else ⟨m.entries ++ [(partialSigKey pub, sig)]⟩

/-- Does input `i` spend the P2WPKH output `target`?  (spec §3: an
input is only ever signed if its expected scriptPubKey equals
`P2WPKH(hash160(PublicKey))`.) -/
def inputMatches (c : PsbtContainer) (target : Bytes) (i : Nat) (m : PsbtMap) : Bool :=
  spentScript c i m = some target

/-- Sign the input maps in order, keeping their index for the outpoint
lookup and the sighash: a matching input gains a partial-signature
record (signature plus sighash-type byte), every other input is
returned untouched. -/
def signInputs (C : Crypto) (k pub target : Bytes) (c : PsbtContainer) :
    Nat → List PsbtMap → List PsbtMap
  | _, [] => []
  | i, m :: rest =>
    (if inputMatches c target i m then
       insertPartialSig pub (C.signDer k (C.computeSighash c i) ++ [sighashByte m]) m
     else m) :: signInputs C k pub target c (i + 1) rest

/-- The number of inputs whose spent script matches `target`, walking
the input maps with their indices. -/
def countMatches (c : PsbtContainer) (target : Bytes) : Nat → List PsbtMap → Nat
  | _, [] => 0
  | i, m :: rest =>
    (if inputMatches c target i m then 1 else 0) + countMatches c target (i + 1) rest

/-- Modelled from the spec (§4.5 Sign): `tx.sign(privateKeyBytes)` —
derive the public key and its hash160, sign every input whose spent
script is the matching P2WPKH program, leave all others untouched, and
fail with `NoMatchingInput` when no input matches.  Finalization never
happens (the source comments `// No finalization, as other signers might
be needed`). -/
def signPsbt (C : Crypto) (k : Bytes) (c : PsbtContainer) : Except SignError PsbtContainer :=
  if countMatches c (p2wpkhScript (C.hash160 (C.derivePublicKey k))) 0 c.inputs = 0 then
    .error .noMatchingInput
  else
    .ok ⟨c.globalMap,
      signInputs C k (C.derivePublicKey k)
        (p2wpkhScript (C.hash160 (C.derivePublicKey k))) c 0 c.inputs,
      c.outputs⟩

/-! ## The tool handlers (`src/server.ts` lines 27–88)

The handlers mirror the source's order of fallible steps and its
try/catch: every error thrown by a step becomes a structured
`isError` result, success wraps the payload. -/

/-- The fallible body of the `sign_transaction` handler
(`src/server.ts` lines 70–79): `validateHex(psbtHex)`, then
`btc.WIF(network).decode(privateKeyWif)`, then
`Transaction.fromPSBT(hex.decode(psbtHex))`, then `tx.sign`, then
`hex.encode(tx.toPSBT())`. -/
def signPipeline (C : Crypto) (psbtHex wif : String) (testnet : Bool) :
    Except SignError String := do
  validateHex psbtHex none
  let k ← importWif wif testnet
  let c ← fromPSBT (hexDecode psbtHex)
  let c' ← signPsbt C k c
  pure (hexEncode (toPSBT c'))

/-- The `sign_transaction` tool handler (`src/server.ts` lines 61–88):
the try/catch turns every error of the pipeline into a structured
failure result. -/
def sign_transaction (C : Crypto) (psbtHex wif : String) (testnet : Bool) : ToolResult :=
  match signPipeline C psbtHex wif testnet with
  | .ok s => .success s
  | .error e => .failure e

/-- The fallible body of the `generate_address` handler
(`src/server.ts` lines 35–39): `btc.WIF(network).decode`, public key
derivation, `btc.p2wpkh(publicKey, network).address`.  The source's
defensive `if (!address)` branch is unreachable here because the
modelled encoder is total. -/
def addrPipeline (C : Crypto) (wif : String) (testnet : Bool) : Except SignError String := do
  let k ← importWif wif testnet
  pure (segwitAddress (if testnet then ['t', 'b'] else ['b', 'c']) 0
    (C.hash160 (C.derivePublicKey k)))

/-- The `generate_address` tool handler (`src/server.ts` lines 27–58):
the try/catch turns every error of the pipeline into a structured
failure result. -/
def generate_address (C : Crypto) (wif : String) (testnet : Bool) : ToolResult :=
  match addrPipeline C wif testnet with
  | .ok a => .success a
  | .error e => .failure e

/-- Does an input map carry a final scriptWitness record (BIP174 key
type `0x08`, empty key data)?  The spec (§4.5) promises Sign never
writes one. -/
def hasFinalScriptWitness (m : PsbtMap) : Bool := keyMem [0x08] m.entries

/-! ## Concrete instances for evaluation

A small concrete `Crypto` instance and concrete containers, used to
evaluate the theorems below on explicit inputs.  The theorems hold for
every `Crypto` instance; this one keeps kernel evaluation cheap. -/

/-- A concrete `Crypto` instance with constant outputs, satisfying the
spec contracts (33-byte public key, 20-byte hash160, DER signature of
at most 72 bytes, all output bytes below 256). -/
def cryptoA : Crypto where
  derivePublicKey := fun _ => List.replicate 33 0x02
  hash160 := fun _ => List.replicate 20 0
  computeSighash := fun _ _ => [0xAB]
  signDer := fun _ _ => [0xCD]
  hash160_length := fun _ => List.length_replicate 20 0
  derivePublicKey_length := fun _ => List.length_replicate 33 2
  derivePublicKey_bytes := fun _ x hx => by
    rw [List.eq_of_mem_replicate hx]; norm_num
  signDer_length := fun _ _ => by norm_num
  signDer_bytes := fun _ _ x hx => by
    rw [List.eq_of_mem_singleton hx]; norm_num

/-- A transaction input for the concrete fixtures: a 32-byte txid of
one repeated byte, the referenced output index, an empty scriptSig and
the final sequence. -/
def wTxIn (fill vout : Nat) : Bytes :=
  List.replicate 32 fill ++ leBytesFixed 4 vout ++ [0] ++ List.replicate 4 0xFF

/-- A transaction output for the concrete fixtures: 8-byte amount,
script length, script. -/
def wTxOut (value : Nat) (script : Bytes) : Bytes :=
  leBytesFixed 8 value ++ [script.length] ++ script

/-- A legacy-serialized transaction for the concrete fixtures: version
1, the given inputs and outputs, locktime 0. -/
def wTx (ins outs : List Bytes) : Bytes :=
  [1, 0, 0, 0] ++ [ins.length] ++ ins.flatten ++ [outs.length] ++ outs.flatten ++ [0, 0, 0, 0]

/-- A previous transaction with two outputs whose second output pays to
`cryptoA`'s P2WPKH program — the spend data of the matching fixture's
input, carried as a full previous transaction. -/
def wPrevTx : Bytes :=
  wTx [wTxIn 0xAA 0]
    [wTxOut 1000 (p2wpkhScript (List.replicate 20 3)),
     wTxOut 5000 (p2wpkhScript (List.replicate 20 0))]

/-- The matching fixture's unsigned transaction: one input whose
outpoint references output 1 of `wPrevTx`, one output. -/
def wUnsigned : Bytes := wTx [wTxIn 0xBB 1] [wTxOut 4000 (p2wpkhScript (List.replicate 20 4))]

/-- The matching fixture's container: its single input carries only a
non-witness UTXO (the full previous transaction), so matching must go
through the previous-transaction path of `spentScript`. -/
def wMatchContainer : PsbtContainer :=
  ⟨⟨[([0x00], wUnsigned)]⟩, [⟨[([0x00], wPrevTx)]⟩], [⟨[]⟩]⟩

/-- The matching fixture's container after `cryptoA` signs it with key
`[0x11]`: the partial-signature record is appended to the input map. -/
def wMatchSigned : PsbtContainer :=
  ⟨⟨[([0x00], wUnsigned)]⟩,
   [⟨[([0x00], wPrevTx), (partialSigKey (List.replicate 33 2), [0xCD, 0x01])]⟩],
   [⟨[]⟩]⟩

/-- The serialized matching fixture, as a hex string. -/
def wMatchHex : String :=
  "70736274ff0100520100000001bbbbbbbbbbbbbbbbbbbbbbbbbbbbbbbbbbbbbbbbbbbbbbbbbbbbbbbbbbbbbbbb0100000000ffffffff01a00f000000000000160014040404040404040404040404040404040404040400000000000100710100000001aaaaaaaaaaaaaaaaaaaaaaaaaaaaaaaaaaaaaaaaaaaaaaaaaaaaaaaaaaaaaaaa0000000000ffffffff02e803000000000000160014030303030303030303030303030303030303030388130000000000001600140000000000000000000000000000000000000000000000000000"

/-- The hex `sign_transaction` returns for the matching fixture under
`cryptoA`: the serialization of `wMatchSigned`. -/
def wSignedHex : String :=
  "70736274ff0100520100000001bbbbbbbbbbbbbbbbbbbbbbbbbbbbbbbbbbbbbbbbbbbbbbbbbbbbbbbbbbbbbbbb0100000000ffffffff01a00f000000000000160014040404040404040404040404040404040404040400000000000100710100000001aaaaaaaaaaaaaaaaaaaaaaaaaaaaaaaaaaaaaaaaaaaaaaaaaaaaaaaaaaaaaaaa0000000000ffffffff02e80300000000000016001403030303030303030303030303030303030303038813000000000000160014000000000000000000000000000000000000000000000000220202020202020202020202020202020202020202020202020202020202020202020202cd010000"

/-- The no-match fixture's unsigned transaction: two inputs. -/
def wUnsigned2 : Bytes :=
  wTx [wTxIn 0xCC 0, wTxIn 0xDD 0] [wTxOut 800 (p2wpkhScript (List.replicate 20 4))]

/-- The no-match fixture's first spend data: a witness UTXO paying a
P2WPKH program different from `cryptoA`'s. -/
def wWitnessUtxo : Bytes := leBytesFixed 8 700 ++ [22] ++ p2wpkhScript (List.replicate 20 1)

/-- The no-match fixture's second spend data: a full previous
transaction whose referenced output pays yet another program. -/
def wPrevTx2 : Bytes := wTx [wTxIn 0xEE 0] [wTxOut 900 (p2wpkhScript (List.replicate 20 2))]

/-- The no-match fixture's container: one witness-UTXO input and one
non-witness-UTXO input, neither paying `cryptoA`'s program. -/
def wNoMatchContainer : PsbtContainer :=
  ⟨⟨[([0x00], wUnsigned2)]⟩, [⟨[([0x01], wWitnessUtxo)]⟩, ⟨[([0x00], wPrevTx2)]⟩], [⟨[]⟩]⟩

/-- The serialized no-match fixture, as a hex string. -/
def wNoMatchHex : String :=
  "70736274ff01007b0100000002cccccccccccccccccccccccccccccccccccccccccccccccccccccccccccccccc0000000000ffffffffdddddddddddddddddddddddddddddddddddddddddddddddddddddddddddddddd0000000000ffffffff0120030000000000001600140404040404040404040404040404040404040404000000000001011fbc020000000000001600140101010101010101010101010101010101010101000100520100000001eeeeeeeeeeeeeeeeeeeeeeeeeeeeeeeeeeeeeeeeeeeeeeeeeeeeeeeeeeeeeeee0000000000ffffffff0184030000000000001600140202020202020202020202020202020202020202000000000000"

/-- The base58-check payload and checksum of the valid testnet WIF used
as a concrete witness input (version byte `0xEF`, 32 key bytes `0x11`,
compression flag, valid checksum). -/
def wWifBytes : Bytes :=
  [0xEF] ++ List.replicate 32 0x11 ++ [0x01] ++ [63, 204, 116, 108]

/-- The decoded bytes of the corrupted-checksum WIF string used as a
concrete witness input (its trailing checksum does not match the double
SHA-256 of its payload). -/
def wBadWifBytes : Bytes :=
  [0xEF] ++ List.replicate 32 0x11 ++ [0x01] ++ [192, 204, 116, 108]

/-- The decoded bytes of the valid mainnet WIF (version byte `0x80`)
used as a concrete witness input for the network-mismatch check. -/
def wMainWifBytes : Bytes :=
  [0x80] ++ List.replicate 32 0x11 ++ [0x01] ++ [150, 155, 89, 167]

/-! ## Helper lemmas about the map operations -/

/-- Membership of a key after appending one entry. -/
theorem keyMem_append_single (k : Bytes) (e : Bytes × Bytes) (es : List (Bytes × Bytes)) :
    keyMem k (es ++ [e]) = (keyMem k es || decide (e.1 = k)) := by
  induction es with
  | nil => simp [keyMem]
  | cons e' es ih =>
    by_cases h : e'.1 = k <;> simp [keyMem, h, ih]

/-- Appending an entry with a different key does not change a lookup. -/
theorem lookupKey_append_ne (k : Bytes) (e : Bytes × Bytes) (h : e.1 ≠ k) :
    ∀ es, lookupKey k (es ++ [e]) = lookupKey k es := by
  intro es
  induction es with
  | nil => simp [lookupKey, h]
  | cons e' es ih =>
    by_cases h' : e'.1 = k <;> simp [lookupKey, h', ih]

/-- The partial-signature key is never the witness-UTXO key. -/
theorem partialSigKey_ne_utxo (pub : Bytes) : partialSigKey pub ≠ [0x01] := by
  simp [partialSigKey]

/-- The partial-signature key is never the non-witness-UTXO key. -/
theorem partialSigKey_ne_nonwitness (pub : Bytes) : partialSigKey pub ≠ [0x00] := by
  simp [partialSigKey]

/-- Inserting a partial signature does not change a lookup under any
other key. -/
theorem lookup_insertPartialSig_ne (pub sig : Bytes) (m : PsbtMap) (key : Bytes)
    (h : partialSigKey pub ≠ key) :
    (insertPartialSig pub sig m).lookup key = m.lookup key := by
  unfold insertPartialSig
  split
  · rfl
  · unfold PsbtMap.lookup
    simp only
    exact lookupKey_append_ne key _ h _

/-- Inserting a partial signature leaves the spent script unchanged:
neither the witness-UTXO entry (key type `0x01`) nor the
non-witness-UTXO entry (key type `0x00`) is touched. -/
theorem spentScript_insert (c : PsbtContainer) (i : Nat) (pub sig : Bytes) (m : PsbtMap) :
    spentScript c i (insertPartialSig pub sig m) = spentScript c i m := by
  unfold spentScript
  rw [lookup_insertPartialSig_ne _ _ _ _ (partialSigKey_ne_utxo pub),
    lookup_insertPartialSig_ne _ _ _ _ (partialSigKey_ne_nonwitness pub)]

/-- The spent script of an input depends on the container only through
its global map (the unsigned transaction's outpoints). -/
theorem spentScript_congr (c₁ c₂ : PsbtContainer) (h : c₁.globalMap = c₂.globalMap)
    (i : Nat) (m : PsbtMap) :
    spentScript c₁ i m = spentScript c₂ i m := by
  unfold spentScript inputVout
  rw [h]

/-- Inserting a partial signature does not change whether an input
matches the target script. -/
theorem inputMatches_insert (c : PsbtContainer) (target : Bytes) (i : Nat)
    (pub sig : Bytes) (m : PsbtMap) :
    inputMatches c target i (insertPartialSig pub sig m) = inputMatches c target i m := by
  simp [inputMatches, spentScript_insert]

/-- Matching depends on the container only through its global map. -/
theorem inputMatches_congr (c₁ c₂ : PsbtContainer) (h : c₁.globalMap = c₂.globalMap)
    (target : Bytes) (i : Nat) (m : PsbtMap) :
    inputMatches c₁ target i m = inputMatches c₂ target i m := by
  simp [inputMatches, spentScript_congr c₁ c₂ h]

/-- After inserting a partial signature for `pub`, a record keyed by
`pub` is present. -/
theorem keyMem_insert_self (pub sig : Bytes) (m : PsbtMap) :
    keyMem (partialSigKey pub) (insertPartialSig pub sig m).entries = true := by
  unfold insertPartialSig
  split
  · assumption
  · simp [keyMem_append_single]

/-- Inserting a partial signature for the same public key twice is the
same as inserting it once: the second insertion does not overwrite. -/
theorem insertPartialSig_idem (pub sig1 sig2 : Bytes) (m : PsbtMap) :
    insertPartialSig pub sig2 (insertPartialSig pub sig1 m) = insertPartialSig pub sig1 m := by
  conv_lhs => rw [insertPartialSig]
  rw [if_pos (keyMem_insert_self pub sig1 m)]

/-- Every entry after an insertion is an original entry or carries the
partial-signature key. -/
theorem mem_insertPartialSig (pub sig : Bytes) (m : PsbtMap) (e : Bytes × Bytes)
    (he : e ∈ (insertPartialSig pub sig m).entries) :
    e ∈ m.entries ∨ e.1 = partialSigKey pub := by
  unfold insertPartialSig at he
  split at he
  · exact Or.inl he
  · simp only at he
    rcases List.mem_append.mp he with h | h
    · exact Or.inl h
    · rcases List.mem_singleton.mp h with rfl
      exact Or.inr rfl

/-- Inserting a partial signature never introduces a final
scriptWitness record. -/
theorem hasFinalScriptWitness_insert (pub sig : Bytes) (m : PsbtMap) :
    hasFinalScriptWitness (insertPartialSig pub sig m) = hasFinalScriptWitness m := by
  unfold insertPartialSig hasFinalScriptWitness
  split
  · rfl
  · simp [keyMem_append_single, partialSigKey]

/-! ## Helper lemmas about the signing pass -/

/-- Signing preserves the number of inputs. -/
theorem signInputs_length (C : Crypto) (k pub target : Bytes) (c : PsbtContainer) :
    ∀ (i : Nat) (ms : List PsbtMap), (signInputs C k pub target c i ms).length = ms.length := by
  intro i ms
  induction ms generalizing i with
  | nil => rfl
  | cons m rest ih => simp [signInputs, ih]

/-- A non-matching input map is returned untouched, at its position. -/
theorem signInputs_getD_unmatched (C : Crypto) (k pub target : Bytes) (c : PsbtContainer) :
    ∀ (ms : List PsbtMap) (i j : Nat),
      inputMatches c target (i + j) (ms.getD j ⟨[]⟩) = false →
      (signInputs C k pub target c i ms).getD j ⟨[]⟩ = ms.getD j ⟨[]⟩ := by
  intro ms
  induction ms with
  | nil => intro i j _; rfl
  | cons m rest ih =>
    intro i j hj
    cases j with
    | zero =>
      simp only [Nat.add_zero, List.getD_cons_zero] at hj
      simp [signInputs, hj]
    | succ j' =>
      simp only [List.getD_cons_succ] at hj ⊢
      rw [show i + (j' + 1) = (i + 1) + j' by omega] at hj
      exact ih (i + 1) j' hj

/-- Signing preserves, input by input and index by index, whether the
input matches — also when the count is taken over a container with the
same global map (such as the signed container itself). -/
theorem countMatches_signInputs (C : Crypto) (k pub target : Bytes) (c c' : PsbtContainer)
    (hg : c'.globalMap = c.globalMap) :
    ∀ (ms : List PsbtMap) (i : Nat),
      countMatches c' target i (signInputs C k pub target c i ms)
        = countMatches c target i ms := by
  intro ms
  induction ms with
  | nil => intro i; rfl
  | cons m rest ih =>
    intro i
    by_cases hm : inputMatches c target i m = true
    · simp only [signInputs, hm, if_true, countMatches]
      rw [inputMatches_congr c' c hg, inputMatches_insert, hm, ih]
      simp
    · rw [Bool.not_eq_true] at hm
      simp only [signInputs, hm, Bool.false_eq_true, if_false, countMatches]
      rw [inputMatches_congr c' c hg, hm, ih]
      simp

/-- A pointwise non-matching input list has a zero match count. -/
theorem countMatches_eq_zero (c : PsbtContainer) (target : Bytes) :
    ∀ (ms : List PsbtMap) (i : Nat),
      (∀ j, j < ms.length → inputMatches c target (i + j) (ms.getD j ⟨[]⟩) = false) →
      countMatches c target i ms = 0 := by
  intro ms
  induction ms with
  | nil => intro i _; rfl
  | cons m rest ih =>
    intro i h
    have h0 := h 0 (by simp)
    simp only [Nat.add_zero, List.getD_cons_zero] at h0
    simp only [countMatches, h0, Bool.false_eq_true, if_false, Nat.zero_add]
    apply ih
    intro j hj
    have hs := h (j + 1) (by simpa using hj)
    simp only [List.getD_cons_succ] at hs
    rw [show i + 1 + j = i + (j + 1) by omega]
    exact hs

/-- Every signed input map comes from an original input map, either
untouched or with one partial-signature insertion. -/
theorem signInputs_mem (C : Crypto) (k pub target : Bytes) (c : PsbtContainer) :
    ∀ (ms : List PsbtMap) (i : Nat) (m' : PsbtMap),
      m' ∈ signInputs C k pub target c i ms →
      ∃ m, m ∈ ms ∧ (m' = m ∨ ∃ sig, m' = insertPartialSig pub sig m) := by
  intro ms
  induction ms with
  | nil => intro i m' h; cases h
  | cons m rest ih =>
    intro i m' hm'
    rcases List.mem_cons.mp hm' with h | h
    · refine ⟨m, List.mem_cons_self m rest, ?_⟩
      by_cases hm : inputMatches c target i m = true
      · rw [h]; simp only [signInputs, hm, if_pos]
        exact Or.inr ⟨_, rfl⟩
      · rw [h]; simp only [signInputs, hm]
        simp [hm]
    · rcases ih (i + 1) m' h with ⟨m0, hm0, hcase⟩
      exact ⟨m0, List.mem_cons_of_mem m hm0, hcase⟩

/-- Signing the already-signed input list again — against any container
with the same global map — changes nothing: every matched input already
carries the partial signature, every other input is untouched either
time. -/
theorem signInputs_idem (C : Crypto) (k pub target : Bytes) (c c' : PsbtContainer)
    (hg : c'.globalMap = c.globalMap) :
    ∀ (ms : List PsbtMap) (i : Nat),
      signInputs C k pub target c' i (signInputs C k pub target c i ms)
        = signInputs C k pub target c i ms := by
  intro ms
  induction ms with
  | nil => intro i; rfl
  | cons m rest ih =>
    intro i
    by_cases hm : inputMatches c target i m = true
    · simp only [signInputs, hm, if_true]
      rw [inputMatches_congr c' c hg, inputMatches_insert, if_pos hm, insertPartialSig_idem,
        ih]
    · rw [Bool.not_eq_true] at hm
      simp only [signInputs, hm, Bool.false_eq_true, if_false]
      rw [inputMatches_congr c' c hg, hm]
      simp only [Bool.false_eq_true, if_false]
      rw [ih]

/-! ## Helper lemmas about the bech32 encoder -/

/-- One byte contributes exactly eight bits. -/
theorem byteBits_length (b : Nat) : (byteBits b).length = 8 := by
  simp [byteBits]

/-- The bit stream of a byte string has eight bits per byte. -/
theorem flatten_byteBits_length (bs : Bytes) :
    ((bs.map byteBits).flatten).length = 8 * bs.length := by
  induction bs with
  | nil => rfl
  | cons b rest ih =>
    simp only [List.map_cons, List.flatten_cons, List.length_append, ih,
      byteBits_length, List.length_cons]
    ring

/-- A list of length `k * m` splits into exactly `m` chunks of `k`. -/
theorem chunksF_length_exact {α : Type} (k : Nat) (hk : 0 < k) :
    ∀ (m fuel : Nat) (l : List α), l.length = k * m → l.length ≤ fuel →
      (chunksF k fuel l).length = m := by
  intro m
  induction m with
  | zero =>
    intro fuel l hl _
    have : l = [] := List.eq_nil_of_length_eq_zero (by omega)
    subst this
    cases fuel <;> rfl
  | succ m ih =>
    intro fuel l hl hf
    have hk' : k ≤ l.length := by
      rw [hl, Nat.mul_succ]; omega
    have hlpos : 0 < l.length := by omega
    cases l with
    | nil => simp at hlpos
    | cons x xs =>
      cases fuel with
      | zero => omega
      | succ f =>
        show ((x :: xs).take k :: chunksF k f ((x :: xs).drop k)).length = m + 1
        have hdrop : ((x :: xs).drop k).length = k * m := by
          rw [List.length_drop, hl, Nat.mul_succ]; omega
        have hdropf : ((x :: xs).drop k).length ≤ f := by
          rw [List.length_drop]
          simp only [List.length_cons] at hf hk' ⊢
          omega
        simp [ih f _ hdrop hdropf]

/-- A 20-byte witness program regroups into exactly 32 five-bit words. -/
theorem toWords_length_20 (prog : Bytes) (h : prog.length = 20) :
    (toWords prog).length = 32 := by
  simp only [toWords]
  have hb : ((prog.map byteBits).flatten).length = 160 := by
    rw [flatten_byteBits_length, h]
  have hpad : (5 - ((prog.map byteBits).flatten).length % 5) % 5 = 0 := by rw [hb]
  rw [hpad]
  simp only [List.replicate_zero, List.append_nil, List.length_map]
  unfold chunks
  exact chunksF_length_exact 5 (by norm_num) 32 _ _ (by rw [hb]) (Nat.le_refl _)

/-- The bech32 checksum always has six words. -/
theorem bech32CreateChecksum_length (hrp : List Char) (data : List Nat) :
    (bech32CreateChecksum hrp data).length = 6 := by
  simp [bech32CreateChecksum]

/-- The character list of a packed string. -/
theorem string_data_mk (l : List Char) : (⟨l⟩ : String).data = l := rfl

/-- The length of a packed string is the length of its character
list. -/
theorem string_length_mk (l : List Char) : (⟨l⟩ : String).length = l.length := rfl

/-- A testnet P2WPKH address is 42 characters long. -/
theorem segwitAddress_tb_length (prog : Bytes) (h : prog.length = 20) :
    (segwitAddress ['t', 'b'] 0 prog).length = 42 := by
  unfold segwitAddress
  rw [string_length_mk]
  simp [toWords_length_20 prog h, bech32CreateChecksum_length]

/-- A testnet P2WPKH address starts with `tb1q` (the witness version 0
spells as `q`). -/
theorem segwitAddress_tb_take4 (prog : Bytes) :
    (segwitAddress ['t', 'b'] 0 prog).data.take 4 = ['t', 'b', '1', 'q'] := by
  unfold segwitAddress
  rw [string_data_mk]
  simp [List.take]
  decide

/-- Inversion of a successful signing run: some input matched, and the
result is the original container with exactly the signed input list. -/
theorem signPsbt_ok (C : Crypto) (k : Bytes) (c c' : PsbtContainer)
    (h : signPsbt C k c = .ok c') :
    countMatches c (p2wpkhScript (C.hash160 (C.derivePublicKey k))) 0 c.inputs ≠ 0
      ∧ c' = ⟨c.globalMap,
          signInputs C k (C.derivePublicKey k)
            (p2wpkhScript (C.hash160 (C.derivePublicKey k))) c 0 c.inputs,
          c.outputs⟩ := by
  unfold signPsbt at h
  split at h
  · cases h
  · exact ⟨by assumption, (Except.ok.inj h).symm⟩

/-! ## Helper lemmas about the CompactSize codec -/

/-- A fixed-width little-endian encoding has exactly its width. -/
theorem leBytesFixed_length (w : Nat) : ∀ n, (leBytesFixed w n).length = w := by
  induction w with
  | zero => intro n; rfl
  | succ w ih => intro n; simp [leBytesFixed, ih]

/-- Fixed-width little-endian bytes are bytes. -/
theorem leBytesFixed_lt (w : Nat) : ∀ n, ∀ b ∈ leBytesFixed w n, b < 256 := by
  induction w with
  | zero => intro n b hb; cases hb
  | succ w ih =>
    intro n b hb
    rcases List.mem_cons.mp hb with rfl | hb
    · exact Nat.mod_lt _ (by norm_num)
    · exact ih _ b hb

/-- Little-endian value of a cons: the head is the least significant
byte. -/
theorem leNat_cons (b : Nat) (bs : Bytes) : leNat (b :: bs) = leNat bs * 256 + b := rfl

/-- Reading back a fixed-width little-endian encoding recovers the
value. -/
theorem leNat_leBytesFixed (w : Nat) : ∀ n, n < 2 ^ (8 * w) → leNat (leBytesFixed w n) = n := by
  induction w with
  | zero =>
    intro n hn
    have : n = 0 := by simpa using hn
    subst this
    rfl
  | succ w ih =>
    intro n hn
    show leNat (n % 256 :: leBytesFixed w (n / 256)) = n
    have hdiv : n / 256 < 2 ^ (8 * w) := by
      have h2 : n < 2 ^ (8 * w) * 256 := by
        rw [show 8 * (w + 1) = 8 * w + 8 by ring, pow_add] at hn
        simpa using hn
      exact (Nat.div_lt_iff_lt_mul (by norm_num)).mpr h2
    rw [leNat_cons, ih (n / 256) hdiv]
    omega

/-- Re-encoding the little-endian value of a byte string recovers the
bytes. -/
theorem leBytesFixed_leNat : ∀ (bs : Bytes), (∀ b ∈ bs, b < 256) →
    leBytesFixed bs.length (leNat bs) = bs := by
  intro bs
  induction bs with
  | nil => intro _; rfl
  | cons b tl ih =>
    intro h
    have hb : b < 256 := h b (List.mem_cons_self _ _)
    show leNat (b :: tl) % 256 :: leBytesFixed tl.length (leNat (b :: tl) / 256) = b :: tl
    rw [leNat_cons,
      show (leNat tl * 256 + b) % 256 = b by omega,
      show (leNat tl * 256 + b) / 256 = leNat tl by omega,
      ih (fun x hx => h x (List.mem_cons_of_mem _ hx))]

/-- The little-endian value of a byte string is bounded by its
width. -/
theorem leNat_lt (bs : Bytes) (h : ∀ b ∈ bs, b < 256) : leNat bs < 2 ^ (8 * bs.length) := by
  induction bs with
  | nil => simp [leNat]
  | cons b tl ih =>
    have hb : b < 256 := h b (List.mem_cons_self _ _)
    have ht : leNat tl < 2 ^ (8 * tl.length) := ih fun x hx => h x (List.mem_cons_of_mem _ hx)
    rw [leNat_cons]
    have h2 : 2 ^ (8 * (b :: tl).length) = 2 ^ (8 * tl.length) * 256 := by
      rw [List.length_cons, show 8 * (tl.length + 1) = 8 * tl.length + 8 by ring, pow_add]
      norm_num
    rw [h2]
    set x := 2 ^ (8 * tl.length)
    omega

/-- Inversion of an exact split: the input is the two parts, and the
first part has the requested length. -/
theorem splitExact_eq (n : Nat) (bs a r : Bytes) (h : splitExact n bs = some (a, r)) :
    bs = a ++ r ∧ a.length = n := by
  unfold splitExact at h
  split at h
  · cases h
  · have hh := Option.some.inj h
    rw [Prod.mk.injEq] at hh
    obtain ⟨rfl, rfl⟩ := hh
    constructor
    · exact (List.take_append_drop n bs).symm
    · rw [List.length_take]
      omega

/-- Splitting off exactly a prepended part returns it with the tail. -/
theorem splitExact_append (a rest : Bytes) : splitExact a.length (a ++ rest) = some (a, rest) := by
  unfold splitExact
  rw [if_neg (by simp)]
  rw [List.take_left, List.drop_left]

/-- CompactSize encodings are bytes. -/
theorem compactSizeEnc_lt (n : Nat) : ∀ b ∈ compactSizeEnc n, b < 256 := by
  unfold compactSizeEnc
  split_ifs with h1 h2 h3 <;> intro b hb
  · rw [List.eq_of_mem_singleton hb]; omega
  · rcases List.mem_cons.mp hb with rfl | hb
    · norm_num
    · exact leBytesFixed_lt 2 n b hb
  · rcases List.mem_cons.mp hb with rfl | hb
    · norm_num
    · exact leBytesFixed_lt 4 n b hb
  · rcases List.mem_cons.mp hb with rfl | hb
    · norm_num
    · exact leBytesFixed_lt 8 n b hb

/-- Parsing a canonical CompactSize encoding recovers the value and
the tail. -/
theorem parseCompactSize_enc (n : Nat) (hn : n < 2 ^ 64) (rest : Bytes) :
    parseCompactSize (compactSizeEnc n ++ rest) = some (n, rest) := by
  have hsp : ∀ w : Nat, splitExact w (leBytesFixed w n ++ rest)
      = some (leBytesFixed w n, rest) := by
    intro w
    have h := splitExact_append (leBytesFixed w n) rest
    rwa [leBytesFixed_length] at h
  unfold compactSizeEnc
  split_ifs with h1 h2 h3
  · show parseCompactSize (n :: rest) = _
    simp only [parseCompactSize]
    rw [if_pos h1]
  · show parseCompactSize (0xfd :: (leBytesFixed 2 n ++ rest)) = _
    simp only [parseCompactSize]
    norm_num
    rw [hsp 2]
    simp only [Option.some_bind]
    rw [leNat_leBytesFixed 2 n (by norm_num at h2 ⊢; exact h2), if_neg h1]
  · show parseCompactSize (0xfe :: (leBytesFixed 4 n ++ rest)) = _
    simp only [parseCompactSize]
    norm_num
    rw [hsp 4]
    simp only [Option.some_bind]
    rw [leNat_leBytesFixed 4 n (by norm_num at h3 ⊢; exact h3), if_neg h2]
  · show parseCompactSize (0xff :: (leBytesFixed 8 n ++ rest)) = _
    simp only [parseCompactSize]
    norm_num
    rw [hsp 8]
    simp only [Option.some_bind]
    rw [leNat_leBytesFixed 8 n (by norm_num at hn ⊢; exact hn), if_neg h3]

/-- Canonicality of the strict CompactSize parser: an accepted input is
exactly the canonical encoding of its value followed by the tail, the
value is CompactSize-representable, and the tail is again bytes. -/
theorem parseCompactSize_canonical (bs : Bytes) (hb : ∀ b ∈ bs, b < 256) (n : Nat)
    (rest : Bytes) (h : parseCompactSize bs = some (n, rest)) :
    bs = compactSizeEnc n ++ rest ∧ n < 2 ^ 64 ∧ ∀ b ∈ rest, b < 256 := by
  cases bs with
  | nil => cases h
  | cons b tl =>
    have hbb : b < 256 := hb b (List.mem_cons_self _ _)
    have htl : ∀ x ∈ tl, x < 256 := fun x hx => hb x (List.mem_cons_of_mem _ hx)
    simp only [parseCompactSize] at h
    split_ifs at h with h1 h2 h3
    · have hh := Option.some.inj h
      rw [Prod.mk.injEq] at hh
      obtain ⟨rfl, rfl⟩ := hh
      refine ⟨?_, by omega, htl⟩
      unfold compactSizeEnc
      rw [if_pos h1]
      rfl
    · cases hsp : splitExact 2 tl with
      | none => rw [hsp] at h; cases h
      | some p =>
        rw [hsp] at h
        simp only [Option.some_bind] at h
        split at h
        · cases h
        · have hh := Option.some.inj h
          rw [Prod.mk.injEq] at hh
          obtain ⟨hn1, hr1⟩ := hh
          obtain ⟨hbs, hlen⟩ := splitExact_eq 2 tl p.1 p.2 hsp
          have hp1 : ∀ x ∈ p.1, x < 256 := fun x hx =>
            htl x (hbs ▸ List.mem_append_left _ hx)
          have hrest : ∀ x ∈ p.2, x < 256 := fun x hx =>
            htl x (hbs ▸ List.mem_append_right _ hx)
          have hlt : leNat p.1 < 65536 := by
            have hv := leNat_lt p.1 hp1
            rw [hlen] at hv
            norm_num at hv
            exact hv
          subst hn1
          subst hr1
          refine ⟨?_, lt_trans hlt (by norm_num), hrest⟩
          unfold compactSizeEnc
          rw [if_neg (by omega), if_pos hlt, h2, hbs,
            show leBytesFixed 2 (leNat p.1) = p.1 from hlen ▸ leBytesFixed_leNat p.1 hp1]
          rfl
    · cases hsp : splitExact 4 tl with
      | none => rw [hsp] at h; cases h
      | some p =>
        rw [hsp] at h
        simp only [Option.some_bind] at h
        split at h
        · cases h
        · have hh := Option.some.inj h
          rw [Prod.mk.injEq] at hh
          obtain ⟨hn1, hr1⟩ := hh
          obtain ⟨hbs, hlen⟩ := splitExact_eq 4 tl p.1 p.2 hsp
          have hp1 : ∀ x ∈ p.1, x < 256 := fun x hx =>
            htl x (hbs ▸ List.mem_append_left _ hx)
          have hrest : ∀ x ∈ p.2, x < 256 := fun x hx =>
            htl x (hbs ▸ List.mem_append_right _ hx)
          have hlt : leNat p.1 < 4294967296 := by
            have hv := leNat_lt p.1 hp1
            rw [hlen] at hv
            norm_num at hv
            exact hv
          subst hn1
          subst hr1
          refine ⟨?_, lt_trans hlt (by norm_num), hrest⟩
          unfold compactSizeEnc
          rw [if_neg (by omega), if_neg (by omega), if_pos hlt, h3, hbs,
            show leBytesFixed 4 (leNat p.1) = p.1 from hlen ▸ leBytesFixed_leNat p.1 hp1]
          rfl
    · cases hsp : splitExact 8 tl with
      | none => rw [hsp] at h; cases h
      | some p =>
        rw [hsp] at h
        simp only [Option.some_bind] at h
        split at h
        · cases h
        · have hh := Option.some.inj h
          rw [Prod.mk.injEq] at hh
          obtain ⟨hn1, hr1⟩ := hh
          obtain ⟨hbs, hlen⟩ := splitExact_eq 8 tl p.1 p.2 hsp
          have hp1 : ∀ x ∈ p.1, x < 256 := fun x hx =>
            htl x (hbs ▸ List.mem_append_left _ hx)
          have hrest : ∀ x ∈ p.2, x < 256 := fun x hx =>
            htl x (hbs ▸ List.mem_append_right _ hx)
          have hlt : leNat p.1 < 2 ^ 64 := by
            have hv := leNat_lt p.1 hp1
            rw [hlen] at hv
            simpa using hv
          subst hn1
          subst hr1
          refine ⟨?_, hlt, hrest⟩
          have hb255 : b = 0xff := by omega
          unfold compactSizeEnc
          rw [if_neg (by omega), if_neg (by omega), if_neg (by omega), hb255, hbs,
            show leBytesFixed 8 (leNat p.1) = p.1 from hlen ▸ leBytesFixed_leNat p.1 hp1]
          rfl

/-! ## Helper lemmas about map serialization -/

/-- A CompactSize encoding is never empty. -/
theorem compactSizeEnc_cons (n : Nat) : ∃ hd tlc, compactSizeEnc n = hd :: tlc := by
  unfold compactSizeEnc
  split_ifs <;> exact ⟨_, _, rfl⟩

/-- A serialized entry, reassociated to the right. -/
theorem serEntry_shape (e : Bytes × Bytes) (Y : Bytes) :
    serEntry e ++ Y
      = compactSizeEnc e.1.length
        ++ (e.1 ++ (compactSizeEnc e.2.length ++ (e.2 ++ Y))) := by
  simp [serEntry, List.append_assoc]

/-- Serialized entries are bytes when the entry is. -/
theorem serEntry_lt (e : Bytes × Bytes)
    (h1 : ∀ b ∈ e.1, b < 256) (h2 : ∀ b ∈ e.2, b < 256) :
    ∀ b ∈ serEntry e, b < 256 := by
  intro b hb
  unfold serEntry at hb
  rcases List.mem_append.mp hb with hb | hb
  · rcases List.mem_append.mp hb with hb | hb
    · rcases List.mem_append.mp hb with hb | hb
      · exact compactSizeEnc_lt _ b hb
      · exact h1 b hb
    · exact compactSizeEnc_lt _ b hb
  · exact h2 b hb

/-- An entry serializes to at least one byte. -/
theorem serEntry_length_pos (e : Bytes × Bytes) : 0 < (serEntry e).length := by
  unfold serEntry
  obtain ⟨hd, tlc, hcs⟩ := compactSizeEnc_cons e.1.length
  simp [hcs]

/-- An entry list serializes to at least one byte per entry. -/
theorem length_le_flatten_serEntry (es : List (Bytes × Bytes)) :
    es.length ≤ ((es.map serEntry).flatten).length := by
  induction es with
  | nil => simp
  | cons e es ih =>
    simp only [List.map_cons, List.flatten_cons, List.length_append, List.length_cons]
    have := serEntry_length_pos e
    omega

/-- Parsing the serialization of an entry list recovers the list and
the bytes after the separator (round trip, given enough fuel and
CompactSize-representable lengths). -/
theorem parseEntriesF_ser :
    ∀ (es : List (Bytes × Bytes)) (fuel : Nat) (rest : Bytes),
      es.length < fuel →
      (∀ e ∈ es, e.1 ≠ [] ∧ e.1.length < 2 ^ 64 ∧ e.2.length < 2 ^ 64) →
      parseEntriesF fuel ((es.map serEntry).flatten ++ 0 :: rest) = some (es, rest) := by
  intro es
  induction es with
  | nil =>
    intro fuel rest hf _
    cases fuel with
    | zero => omega
    | succ f => rfl
  | cons e es ih =>
    intro fuel rest hf hwf
    cases fuel with
    | zero => omega
    | succ f =>
      obtain ⟨hne, hklen, hvlen⟩ := hwf e (List.mem_cons_self _ _)
      have hshape : (((e :: es).map serEntry).flatten) ++ 0 :: rest
          = compactSizeEnc e.1.length
            ++ (e.1 ++ (compactSizeEnc e.2.length
              ++ (e.2 ++ ((es.map serEntry).flatten ++ 0 :: rest)))) := by
        simp only [List.map_cons, List.flatten_cons, List.append_assoc]
        rw [serEntry_shape]
      rw [hshape]
      obtain ⟨hd, tlc, hcs⟩ := compactSizeEnc_cons e.1.length
      rw [hcs, List.cons_append]
      simp only [parseEntriesF]
      rw [← List.cons_append, ← hcs, parseCompactSize_enc e.1.length hklen]
      dsimp only
      rw [if_neg (by simpa using hne)]
      rw [splitExact_append]
      dsimp only
      rw [parseCompactSize_enc e.2.length hvlen]
      dsimp only
      rw [splitExact_append]
      dsimp only
      rw [ih f rest (by simpa using hf) (fun x hx => hwf x (List.mem_cons_of_mem _ hx))]

/-- Canonicality of the entry parser: an accepted byte string is
exactly the serialization of the parsed entries followed by the
separator and the tail, the entries satisfy the well-formedness bounds,
and the tail is again bytes. -/
theorem parseEntriesF_canonical :
    ∀ (fuel : Nat) (bs : Bytes) (es : List (Bytes × Bytes)) (rest : Bytes),
      parseEntriesF fuel bs = some (es, rest) → (∀ b ∈ bs, b < 256) →
      bs = (es.map serEntry).flatten ++ 0 :: rest
        ∧ (∀ e ∈ es, e.1 ≠ [] ∧ e.1.length < 2 ^ 64 ∧ e.2.length < 2 ^ 64
            ∧ (∀ b ∈ e.1, b < 256) ∧ (∀ b ∈ e.2, b < 256))
        ∧ (∀ b ∈ rest, b < 256) := by
  intro fuel
  induction fuel with
  | zero =>
    intro bs es rest h _
    cases bs with
    | nil => cases h
    | cons b tl => cases h
  | succ f ih =>
    intro bs es rest h hb
    cases bs with
    | nil => cases h
    | cons b tl =>
      simp only [parseEntriesF] at h
      cases hcs : parseCompactSize (b :: tl) with
      | none => rw [hcs] at h; cases h
      | some p =>
        obtain ⟨klen, bs1⟩ := p
        rw [hcs] at h
        dsimp only at h
        obtain ⟨hbs_eq, hklen64, hbs1⟩ :=
          parseCompactSize_canonical (b :: tl) hb klen bs1 hcs
        by_cases hk0 : klen = 0
        · subst hk0
          rw [if_pos rfl] at h
          have hh := Option.some.inj h
          rw [Prod.mk.injEq] at hh
          obtain ⟨rfl, rfl⟩ := hh
          refine ⟨?_, ?_, hbs1⟩
          · rw [hbs_eq]
            rfl
          · intro e he
            cases he
        · rw [if_neg hk0] at h
          cases hsp : splitExact klen bs1 with
          | none => rw [hsp] at h; cases h
          | some q =>
            obtain ⟨key, bs2⟩ := q
            rw [hsp] at h
            dsimp only at h
            obtain ⟨hbs1_eq, hkeylen⟩ := splitExact_eq klen bs1 key bs2 hsp
            have hkey : ∀ x ∈ key, x < 256 := fun x hx =>
              hbs1 x (hbs1_eq ▸ List.mem_append_left _ hx)
            have hbs2 : ∀ x ∈ bs2, x < 256 := fun x hx =>
              hbs1 x (hbs1_eq ▸ List.mem_append_right _ hx)
            cases hcv : parseCompactSize bs2 with
            | none => rw [hcv] at h; cases h
            | some r =>
              obtain ⟨vlen, bs3⟩ := r
              rw [hcv] at h
              dsimp only at h
              obtain ⟨hbs2_eq, hvlen64, hbs3⟩ :=
                parseCompactSize_canonical bs2 hbs2 vlen bs3 hcv
              cases hsv : splitExact vlen bs3 with
              | none => rw [hsv] at h; cases h
              | some s =>
                obtain ⟨val, bs4⟩ := s
                rw [hsv] at h
                dsimp only at h
                obtain ⟨hbs3_eq, hvallen⟩ := splitExact_eq vlen bs3 val bs4 hsv
                have hval : ∀ x ∈ val, x < 256 := fun x hx =>
                  hbs3 x (hbs3_eq ▸ List.mem_append_left _ hx)
                have hbs4 : ∀ x ∈ bs4, x < 256 := fun x hx =>
                  hbs3 x (hbs3_eq ▸ List.mem_append_right _ hx)
                cases hpe : parseEntriesF f bs4 with
                | none => rw [hpe] at h; cases h
                | some t =>
                  obtain ⟨es0, rest0⟩ := t
                  rw [hpe] at h
                  dsimp only at h
                  have hh := Option.some.inj h
                  rw [Prod.mk.injEq] at hh
                  obtain ⟨rfl, rfl⟩ := hh
                  obtain ⟨hbs4_eq, hwf0, hrest⟩ := ih bs4 es0 rest0 hpe hbs4
                  refine ⟨?_, ?_, hrest⟩
                  · rw [hbs_eq, hbs1_eq, hbs2_eq, hbs3_eq, hbs4_eq]
                    simp [serEntry, List.append_assoc, hkeylen, hvallen]
                  · intro e he
                    rcases List.mem_cons.mp he with rfl | he
                    · refine ⟨?_, ?_, ?_, hkey, hval⟩
                      · intro hk
                        have hk' : key = [] := hk
                        rw [hk'] at hkeylen
                        exact hk0 (by simpa using hkeylen.symm)
                      · show List.length key < 2 ^ 64
                        rw [hkeylen]
                        exact hklen64
                      · show List.length val < 2 ^ 64
                        rw [hvallen]
                        exact hvlen64
                    · exact hwf0 e he

/-- Serialized maps are bytes when the map's entries are. -/
theorem serMap_lt (m : PsbtMap)
    (h : ∀ e ∈ m.entries, (∀ b ∈ e.1, b < 256) ∧ (∀ b ∈ e.2, b < 256)) :
    ∀ b ∈ serMap m, b < 256 := by
  intro b hb
  unfold serMap at hb
  rcases List.mem_append.mp hb with hb | hb
  · rcases List.mem_flatten.mp hb with ⟨l, hl, hbl⟩
    rcases List.mem_map.mp hl with ⟨e, he, rfl⟩
    exact serEntry_lt e (h e he).1 (h e he).2 b hbl
  · rw [List.eq_of_mem_singleton hb]
    norm_num

/-- A map's serialization viewed as entries plus separator. -/
theorem serMap_shape (m : PsbtMap) (rest : Bytes) :
    serMap m ++ rest = (m.entries.map serEntry).flatten ++ 0 :: rest := by
  unfold serMap
  simp [List.append_assoc]

/-- The map parser inverts map serialization (round trip). -/
theorem parseMap_ser (m : PsbtMap) (rest : Bytes)
    (hwf : ∀ e ∈ m.entries, e.1 ≠ [] ∧ e.1.length < 2 ^ 64 ∧ e.2.length < 2 ^ 64)
    (hdup : hasDupKeys m.entries = false) :
    parseMap (serMap m ++ rest) = some (m, rest) := by
  unfold parseMap
  rw [serMap_shape]
  rw [parseEntriesF_ser m.entries _ rest ?_ hwf]
  · dsimp only
    rw [hdup]
    rfl
  · have h1 := length_le_flatten_serEntry m.entries
    simp only [List.length_append, List.length_cons]
    omega

/-- Canonicality of the map parser: the accepted bytes are exactly the
map's serialization followed by the tail, and the parsed map is
well-formed. -/
theorem parseMap_canonical (bs : Bytes) (m : PsbtMap) (rest : Bytes)
    (h : parseMap bs = some (m, rest)) (hb : ∀ b ∈ bs, b < 256) :
    bs = serMap m ++ rest ∧ WFMap m ∧ ∀ b ∈ rest, b < 256 := by
  unfold parseMap at h
  cases hpe : parseEntriesF bs.length bs with
  | none => rw [hpe] at h; cases h
  | some p =>
    obtain ⟨es, rest1⟩ := p
    rw [hpe] at h
    dsimp only at h
    split_ifs at h with hdup
    have hh := Option.some.inj h
    rw [Prod.mk.injEq] at hh
    obtain ⟨hm, rfl⟩ := hh
    subst hm
    obtain ⟨hbs_eq, hwf, hrest⟩ := parseEntriesF_canonical bs.length bs es _ hpe hb
    rw [Bool.not_eq_true] at hdup
    refine ⟨?_, ⟨hwf, hdup⟩, hrest⟩
    rw [hbs_eq, serMap_shape]

/-- The map-list parser inverts serialization of a map list. -/
theorem parseMapsN_ser : ∀ (ms : List PsbtMap) (rest : Bytes),
    (∀ m ∈ ms, WFMap m) →
    parseMapsN ms.length ((ms.map serMap).flatten ++ rest) = some (ms, rest) := by
  intro ms
  induction ms with
  | nil => intro rest _; rfl
  | cons m ms ih =>
    intro rest hwf
    obtain ⟨hm, hdup⟩ := hwf m (List.mem_cons_self _ _)
    show parseMapsN (ms.length + 1) _ = _
    rw [show (((m :: ms).map serMap).flatten) ++ rest
        = serMap m ++ ((ms.map serMap).flatten ++ rest) by simp [List.append_assoc]]
    simp only [parseMapsN]
    rw [parseMap_ser m _ (fun e he => ⟨(hm e he).1, (hm e he).2.1, (hm e he).2.2.1⟩) hdup]
    dsimp only
    rw [ih rest (fun x hx => hwf x (List.mem_cons_of_mem _ hx))]

/-- Canonicality of the map-list parser. -/
theorem parseMapsN_canonical : ∀ (n : Nat) (bs : Bytes) (ms : List PsbtMap) (rest : Bytes),
    parseMapsN n bs = some (ms, rest) → (∀ b ∈ bs, b < 256) →
    bs = (ms.map serMap).flatten ++ rest ∧ ms.length = n
      ∧ (∀ m ∈ ms, WFMap m) ∧ ∀ b ∈ rest, b < 256 := by
  intro n
  induction n with
  | zero =>
    intro bs ms rest h hb
    have hh := Option.some.inj h
    rw [Prod.mk.injEq] at hh
    obtain ⟨rfl, rfl⟩ := hh
    exact ⟨rfl, rfl, fun m hm => absurd hm (List.not_mem_nil m), hb⟩
  | succ n ih =>
    intro bs ms rest h hb
    simp only [parseMapsN] at h
    cases hpm : parseMap bs with
    | none => rw [hpm] at h; cases h
    | some p =>
      obtain ⟨m, r1⟩ := p
      rw [hpm] at h
      dsimp only at h
      cases hpn : parseMapsN n r1 with
      | none => rw [hpn] at h; cases h
      | some q =>
        obtain ⟨ms1, r2⟩ := q
        rw [hpn] at h
        dsimp only at h
        have hh := Option.some.inj h
        rw [Prod.mk.injEq] at hh
        obtain ⟨rfl, rfl⟩ := hh
        obtain ⟨hbs_eq, hwfm, hr1⟩ := parseMap_canonical bs m r1 hpm hb
        obtain ⟨hr1_eq, hlen, hwfs, hrest⟩ := ih r1 ms1 r2 hpn hr1
        refine ⟨?_, by simp [hlen], ?_, hrest⟩
        · rw [hbs_eq, hr1_eq]
          simp [List.append_assoc]
        · intro x hx
          rcases List.mem_cons.mp hx with rfl | hx
          · exact hwfm
          · exact hwfs x hx

/-- The magic bytes are bytes. -/
theorem psbtMagic_lt : ∀ b ∈ psbtMagic, b < 256 := by decide

/-- A container's serialization, reassociated to the right. -/
theorem toPSBT_shape (c : PsbtContainer) :
    toPSBT c = psbtMagic ++ (serMap c.globalMap
      ++ ((c.inputs.map serMap).flatten ++ (c.outputs.map serMap).flatten)) := by
  simp [toPSBT, List.append_assoc]

/-- Serialized containers are bytes when well-formed. -/
theorem toPSBT_lt (c : PsbtContainer) (h : WFContainer c) : ∀ b ∈ toPSBT c, b < 256 := by
  obtain ⟨hg, hins, houts, -, -⟩ := h
  intro b hb
  rw [toPSBT_shape] at hb
  rcases List.mem_append.mp hb with hb | hb
  · exact psbtMagic_lt b hb
  rcases List.mem_append.mp hb with hb | hb
  · exact serMap_lt _ (fun e he => ⟨(hg.1 e he).2.2.2.1, (hg.1 e he).2.2.2.2⟩) b hb
  rcases List.mem_append.mp hb with hb | hb
  · rcases List.mem_flatten.mp hb with ⟨l, hl, hbl⟩
    rcases List.mem_map.mp hl with ⟨mm, hmm, rfl⟩
    exact serMap_lt mm
      (fun e he => ⟨((hins mm hmm).1 e he).2.2.2.1, ((hins mm hmm).1 e he).2.2.2.2⟩) b hbl
  · rcases List.mem_flatten.mp hb with ⟨l, hl, hbl⟩
    rcases List.mem_map.mp hl with ⟨mm, hmm, rfl⟩
    exact serMap_lt mm
      (fun e he => ⟨((houts mm hmm).1 e he).2.2.2.1, ((houts mm hmm).1 e he).2.2.2.2⟩) b hbl

/-- Round trip: parsing the serialization of a well-formed container
returns exactly that container. -/
theorem fromPSBT_toPSBT (c : PsbtContainer) (h : WFContainer c) :
    fromPSBT (toPSBT c) = .ok c := by
  obtain ⟨hg, hins, houts, ⟨tx, htx, hcounts⟩, hver⟩ := h
  unfold fromPSBT
  rw [toPSBT_shape]
  have htake : (psbtMagic ++ (serMap c.globalMap
      ++ ((c.inputs.map serMap).flatten ++ (c.outputs.map serMap).flatten))).take 5
      = psbtMagic := by
    rw [show (5 : Nat) = psbtMagic.length from rfl, List.take_left]
  have hdrop : (psbtMagic ++ (serMap c.globalMap
      ++ ((c.inputs.map serMap).flatten ++ (c.outputs.map serMap).flatten))).drop 5
      = serMap c.globalMap
        ++ ((c.inputs.map serMap).flatten ++ (c.outputs.map serMap).flatten) := by
    rw [show (5 : Nat) = psbtMagic.length from rfl, List.drop_left]
  rw [if_neg (by rw [htake]; simp)]
  rw [hdrop]
  rw [parseMap_ser c.globalMap _
    (fun e he => ⟨(hg.1 e he).1, (hg.1 e he).2.1, (hg.1 e he).2.2.1⟩) hg.2]
  dsimp only
  rw [htx]
  dsimp only
  rw [hcounts]
  dsimp only
  rw [parseMapsN_ser c.inputs _ hins]
  dsimp only
  rw [show ((c.outputs.map serMap).flatten)
      = (c.outputs.map serMap).flatten ++ [] from (List.append_nil _).symm]
  rw [parseMapsN_ser c.outputs [] houts]
  dsimp only
  rw [if_pos rfl]
  dsimp only
  rcases hver with hv | hv
  · rw [hv]
  · rw [hv]
    dsimp only
    rw [if_neg (by simp)]

/-- Canonicality of the container parser: accepted bytes are exactly
the parsed container's serialization, and the parsed container is
well-formed. -/
theorem fromPSBT_canonical (bs : Bytes) (c : PsbtContainer)
    (h : fromPSBT bs = .ok c) (hb : ∀ b ∈ bs, b < 256) :
    bs = toPSBT c ∧ WFContainer c := by
  unfold fromPSBT at h
  split_ifs at h with hmagic
  rw [not_not] at hmagic
  have hdropb : ∀ b ∈ bs.drop 5, b < 256 := fun b hbm => hb b (List.mem_of_mem_drop hbm)
  cases hpm : parseMap (bs.drop 5) with
  | none => rw [hpm] at h; cases h
  | some p =>
    obtain ⟨g, r1⟩ := p
    rw [hpm] at h
    dsimp only at h
    obtain ⟨hdrop_eq, hwfg, hr1⟩ := parseMap_canonical (bs.drop 5) g r1 hpm hdropb
    cases htx : g.lookup [0x00] with
    | none => rw [htx] at h; cases h
    | some tx =>
      rw [htx] at h
      dsimp only at h
      cases hct : txCounts tx with
      | none => rw [hct] at h; cases h
      | some counts =>
        obtain ⟨nIn, nOut⟩ := counts
        rw [hct] at h
        dsimp only at h
        cases hpi : parseMapsN nIn r1 with
        | none => rw [hpi] at h; cases h
        | some q =>
          obtain ⟨ins, r2⟩ := q
          rw [hpi] at h
          dsimp only at h
          cases hpo : parseMapsN nOut r2 with
          | none => rw [hpo] at h; cases h
          | some s =>
            obtain ⟨outs, r3⟩ := s
            rw [hpo] at h
            dsimp only at h
            obtain ⟨hr1_eq, hinlen, hwfi, hr2⟩ := parseMapsN_canonical nIn r1 ins r2 hpi hr1
            obtain ⟨hr2_eq, houtlen, hwfo, hr3⟩ := parseMapsN_canonical nOut r2 outs r3 hpo hr2
            split_ifs at h with hr3e
            subst hr3e
            dsimp only at h
            have hshape : bs = toPSBT (PsbtContainer.mk g ins outs) := by
              rw [toPSBT_shape]
              conv_lhs => rw [← List.take_append_drop 5 bs]
              rw [hmagic, hdrop_eq, hr1_eq, hr2_eq]
              simp [List.append_assoc]
            have hwfc : WFContainer (PsbtContainer.mk g ins outs) := by
              refine ⟨hwfg, hwfi, hwfo, ⟨tx, htx, ?_⟩, ?_⟩
              · rw [show (PsbtContainer.mk g ins outs).inputs = ins from rfl,
                  show (PsbtContainer.mk g ins outs).outputs = outs from rfl,
                  hinlen, houtlen, hct]
              · show g.lookup [0xFB] = none ∨ g.lookup [0xFB] = some [0, 0, 0, 0]
                cases hv : g.lookup [0xFB] with
                | none => exact Or.inl rfl
                | some v =>
                  rw [hv] at h
                  dsimp only at h
                  split_ifs at h with hv4
                  rw [not_not] at hv4
                  rw [hv4]
                  exact Or.inr rfl
            cases hv : g.lookup [0xFB] with
            | none =>
              rw [hv] at h
              dsimp only at h
              have hc := Except.ok.inj h
              rw [← hc]
              exact ⟨hshape, hwfc⟩
            | some v =>
              rw [hv] at h
              dsimp only at h
              split_ifs at h with hv4
              have hc := Except.ok.inj h
              rw [← hc]
              exact ⟨hshape, hwfc⟩

/-! ## Helper lemmas about the hex codec -/

/-- The character order transports to code points. -/
theorem char_le_toNat {a b : Char} (h : a ≤ b) : a.toNat ≤ b.toNat := by
  exact h

/-- A hex digit's value is below 16, whatever the character. -/
theorem hexDigitVal_lt (c : Char) : hexDigitVal c < 16 := by
  unfold hexDigitVal
  split_ifs with h1 h2 h3
  · rw [Bool.and_eq_true, decide_eq_true_eq, decide_eq_true_eq] at h1
    have h9 := char_le_toNat h1.2
    rw [show (Char.toNat (Char.ofNat 57)) = 57 from rfl] at h9
    rw [show (Char.toNat (Char.ofNat 48)) = 48 from rfl]
    omega
  · rw [Bool.and_eq_true, decide_eq_true_eq, decide_eq_true_eq] at h2
    have h9 := char_le_toNat h2.2
    rw [show (Char.toNat (Char.ofNat 102)) = 102 from rfl] at h9
    rw [show (Char.toNat (Char.ofNat 97)) = 97 from rfl]
    omega
  · rw [Bool.and_eq_true, decide_eq_true_eq, decide_eq_true_eq] at h3
    have h9 := char_le_toNat h3.2
    rw [show (Char.toNat (Char.ofNat 70)) = 70 from rfl] at h9
    rw [show (Char.toNat (Char.ofNat 65)) = 65 from rfl]
    omega
  · omega

/-- Every byte produced by the pairwise digit reader is below 256. -/
theorem hexDecode_go_lt : ∀ (n : Nat) (l : List Char), l.length ≤ n →
    ∀ b ∈ hexDecode.go l, b < 256 := by
  intro n
  induction n with
  | zero =>
    intro l hl b hb
    cases l with
    | nil => rw [show hexDecode.go [] = [] from rfl] at hb; cases hb
    | cons c l2 => simp at hl
  | succ n ih =>
    intro l hl b hb
    cases l with
    | nil => rw [show hexDecode.go [] = [] from rfl] at hb; cases hb
    | cons c1 l2 =>
      cases l2 with
      | nil => rw [show hexDecode.go [c1] = [] from rfl] at hb; cases hb
      | cons c2 rest =>
        rw [show hexDecode.go (c1 :: c2 :: rest)
            = (hexDigitVal c1 * 16 + hexDigitVal c2) :: hexDecode.go rest from rfl] at hb
        rcases List.mem_cons.mp hb with rfl | hb
        · have hd1 := hexDigitVal_lt c1
          have hd2 := hexDigitVal_lt c2
          omega
        · refine ih rest ?_ b hb
          simp only [List.length_cons] at hl
          omega

/-- Hex decoding only ever produces bytes. -/
theorem hexDecode_lt (s : String) : ∀ b ∈ hexDecode s, b < 256 := by
  intro b hb
  exact hexDecode_go_lt s.data.length s.data (le_refl _) b hb

/-- The value of the `d`-th lowercase hex digit is `d`. -/
theorem hexDigitVal_getD : ∀ d, d < 16 → hexDigitVal (hexChars.getD d (Char.ofNat 48)) = d := by
  decide

/-- Every lowercase hex digit passes the source's regex. -/
theorem isHexDigitCh_getD : ∀ d, d < 16 → isHexDigitCh (hexChars.getD d (Char.ofNat 48)) = true := by
  decide

/-- The characters of an encoded byte list, unfolded one byte. -/
theorem hexEncode_data_cons (b : Nat) (bs : Bytes) :
    (hexEncode (b :: bs)).data
      = hexChars.getD (b / 16 % 16) (Char.ofNat 48)
        :: hexChars.getD (b % 16) (Char.ofNat 48) :: (hexEncode bs).data := rfl

/-- Decoding inverts encoding on byte lists (spec §4.1 round-trip law). -/
theorem hexDecode_hexEncode (bs : Bytes) (h : ∀ b ∈ bs, b < 256) :
    hexDecode (hexEncode bs) = bs := by
  induction bs with
  | nil => rfl
  | cons b rest ih =>
    have hb : b < 256 := h b (List.mem_cons_self b rest)
    have hrest := ih (fun x hx => h x (List.mem_cons_of_mem b hx))
    have hgo : hexDecode (hexEncode (b :: rest))
        = (hexDigitVal (hexChars.getD (b / 16 % 16) (Char.ofNat 48)) * 16
          + hexDigitVal (hexChars.getD (b % 16) (Char.ofNat 48)))
          :: hexDecode (hexEncode rest) := rfl
    rw [hgo, hrest, hexDigitVal_getD _ (by omega), hexDigitVal_getD _ (by omega)]
    congr 1
    omega

/-- An encoded byte list has twice the bytes' length in characters. -/
theorem hexEncode_length (bs : Bytes) : (hexEncode bs).length = 2 * bs.length := by
  induction bs with
  | nil => rfl
  | cons b rest ih =>
    show (hexEncode (b :: rest)).data.length = 2 * (b :: rest).length
    rw [hexEncode_data_cons]
    have htail : (hexEncode rest).data.length = 2 * rest.length := ih
    simp only [List.length_cons, htail]
    omega

/-- Every character of an encoded byte list is a hex digit. -/
theorem hexEncode_all_hex (bs : Bytes) : (hexEncode bs).data.all isHexDigitCh = true := by
  induction bs with
  | nil => rfl
  | cons b rest ih =>
    rw [hexEncode_data_cons]
    simp only [List.all_cons, ih, Bool.and_true]
    rw [isHexDigitCh_getD _ (by omega), isHexDigitCh_getD _ (by omega), Bool.and_self]

/-- The source's hex validation accepts every encoded byte list. -/
theorem validateHex_hexEncode (bs : Bytes) : validateHex (hexEncode bs) none = .ok () := by
  unfold validateHex
  rw [if_neg (by rw [hexEncode_length]; omega)]
  rw [if_neg (by simp)]
  rw [if_neg (by simp [hexEncode_all_hex])]

/-! ## Helper lemmas about well-formedness under signing -/

/-- Duplicate-key detection after appending one entry. -/
theorem hasDupKeys_append_single (e : Bytes × Bytes) :
    ∀ es, hasDupKeys (es ++ [e]) = (hasDupKeys es || keyMem e.1 es) := by
  intro es
  induction es with
  | nil => simp [hasDupKeys, keyMem]
  | cons x xs ih =>
    simp only [List.cons_append, hasDupKeys, keyMem, List.append_eq]
    rw [keyMem_append_single, ih]
    by_cases hx : x.1 = e.1
    · rw [if_pos hx, decide_eq_true hx.symm]
      simp
    · rw [if_neg hx, decide_eq_false (fun hxe => hx hxe.symm)]
      simp [Bool.or_assoc]

/-- Inserting a partial-signature record preserves map well-formedness,
given the spec contracts on the key and signature bytes. -/
theorem WFMap_insertPartialSig (pub sig : Bytes) (m : PsbtMap) (h : WFMap m)
    (hpublen : pub.length = 33) (hpubb : ∀ x ∈ pub, x < 256)
    (hsiglen : sig.length < 2 ^ 64) (hsigb : ∀ x ∈ sig, x < 256) :
    WFMap (insertPartialSig pub sig m) := by
  unfold insertPartialSig
  split_ifs with hk
  · exact h
  constructor
  · intro e he
    rcases List.mem_append.mp he with he | he
    · exact h.1 e he
    · rcases List.mem_singleton.mp he with rfl
      refine ⟨by simp [partialSigKey], ?_, hsiglen, ?_, hsigb⟩
      · show (partialSigKey pub).length < 2 ^ 64
        simp only [partialSigKey, List.length_cons, hpublen]
        norm_num
      · intro x hx
        rcases List.mem_cons.mp hx with rfl | hx
        · norm_num
        · exact hpubb x hx
  · show hasDupKeys (m.entries ++ [(partialSigKey pub, sig)]) = false
    rw [hasDupKeys_append_single]
    simp only [Bool.not_eq_true] at hk
    simp [h.2, hk]

/-- The sighash-type byte is a byte. -/
theorem sighashByte_lt (m : PsbtMap) : sighashByte m < 256 := by
  unfold sighashByte
  cases m.lookup [0x03] with
  | some v => exact Nat.mod_lt _ (by norm_num)
  | none => norm_num

/-- Every signed input map comes from an original input map, either
untouched or with the concrete signature record inserted. -/
theorem signInputs_mem_sig (C : Crypto) (k pub target : Bytes) (c : PsbtContainer) :
    ∀ (ms : List PsbtMap) (i : Nat) (m' : PsbtMap),
      m' ∈ signInputs C k pub target c i ms →
      ∃ m, m ∈ ms ∧ (m' = m ∨ ∃ j, m' = insertPartialSig pub
        (C.signDer k (C.computeSighash c j) ++ [sighashByte m]) m) := by
  intro ms
  induction ms with
  | nil => intro i m' h; cases h
  | cons m rest ih =>
    intro i m' hm'
    rcases List.mem_cons.mp hm' with h | h
    · refine ⟨m, List.mem_cons_self m rest, ?_⟩
      by_cases hm : inputMatches c target i m = true
      · rw [h]; simp only [signInputs, hm, if_pos]
        exact Or.inr ⟨i, rfl⟩
      · rw [h]; simp only [signInputs, hm]
        simp [hm]
    · rcases ih (i + 1) m' h with ⟨m0, hm0, hcase⟩
      exact ⟨m0, List.mem_cons_of_mem m hm0, hcase⟩

/-- A successful signing run preserves container well-formedness. -/
theorem WFContainer_signPsbt (C : Crypto) (k : Bytes) (c c' : PsbtContainer)
    (hw : WFContainer c) (hs : signPsbt C k c = .ok c') : WFContainer c' := by
  obtain ⟨-, heq⟩ := signPsbt_ok C k c c' hs
  obtain ⟨hg, hins, houts, ⟨tx, htx, hct⟩, hver⟩ := hw
  rw [heq]
  refine ⟨hg, ?_, houts, ⟨tx, htx, ?_⟩, hver⟩
  · intro m' hm'
    rcases signInputs_mem_sig C k (C.derivePublicKey k)
        (p2wpkhScript (C.hash160 (C.derivePublicKey k))) c c.inputs 0 m' hm'
      with ⟨m, hm, hcase⟩
    rcases hcase with rfl | ⟨j, rfl⟩
    · exact hins _ hm
    · refine WFMap_insertPartialSig _ _ m (hins m hm)
        (C.derivePublicKey_length k) (C.derivePublicKey_bytes k) ?_ ?_
      · have hlen := C.signDer_length k (C.computeSighash c j)
        simp only [List.length_append, List.length_cons, List.length_nil]
        omega
      · intro x hx
        rcases List.mem_append.mp hx with hx | hx
        · exact C.signDer_bytes k (C.computeSighash c j) x hx
        · rcases List.mem_singleton.mp hx with rfl
          exact sighashByte_lt m
  · show txCounts tx = some ((signInputs C k (C.derivePublicKey k)
      (p2wpkhScript (C.hash160 (C.derivePublicKey k))) c 0 c.inputs).length,
      c.outputs.length)
    rw [signInputs_length]
    exact hct

/-! ## Helper lemmas about the tool pipelines -/

/-- Inversion of a successful `sign_transaction` pipeline run into its
stages. -/
theorem signPipeline_ok (C : Crypto) (hex wif : String) (tn : Bool) (out : String)
    (h : signPipeline C hex wif tn = .ok out) :
    ∃ k c c', validateHex hex none = .ok ()
      ∧ importWif wif tn = .ok k
      ∧ fromPSBT (hexDecode hex) = .ok c
      ∧ signPsbt C k c = .ok c'
      ∧ out = hexEncode (toPSBT c') := by
  unfold signPipeline at h
  simp only [Bind.bind, Except.bind, pure, Except.pure] at h
  cases hv : validateHex hex none with
  | error e => rw [hv] at h; cases h
  | ok u =>
    rw [hv] at h
    dsimp only at h
    cases hw : importWif wif tn with
    | error e => rw [hw] at h; cases h
    | ok k =>
      rw [hw] at h
      dsimp only at h
      cases hp : fromPSBT (hexDecode hex) with
      | error e => rw [hp] at h; cases h
      | ok c =>
        rw [hp] at h
        dsimp only at h
        cases hs : signPsbt C k c with
        | error e => rw [hs] at h; cases h
        | ok c' =>
          rw [hs] at h
          dsimp only at h
          exact ⟨k, c, c', rfl, rfl, rfl, hs, (Except.ok.inj h).symm⟩

/-- `getD` through `List.map serMap`. -/
theorem getD_map_serMap (l : List PsbtMap) (j : Nat) :
    (l.map serMap).getD j [] = if j < l.length then serMap (l.getD j ⟨[]⟩) else [] := by
  by_cases hj : j < l.length
  · rw [if_pos hj]
    rw [List.getD_eq_getElem?_getD, List.getElem?_map, List.getD_eq_getElem?_getD,
      List.getElem?_eq_getElem hj]
    rfl
  · rw [if_neg hj]
    rw [List.getD_eq_getElem?_getD, List.getElem?_eq_none]
    · rfl
    · rw [List.length_map]; omega

/-! ## The claims -/

/-- C1: if the supplied private key matches none of the PSBT's inputs'
scripts — the spent script of every input, read from its witness UTXO
or its full previous transaction, differs from the P2WPKH program of
the key's public-key hash — then `sign_transaction` returns the
structured failure `NoMatchingInput`; the failure result carries no
PSBT bytes, so neither the original nor a partially modified PSBT is
returned. -/
theorem sign_transaction_no_matching_input (C : Crypto) (hex wif : String) (tn : Bool)
    (k : Bytes) (c : PsbtContainer)
    (hv : validateHex hex none = .ok ())
    (hw : importWif wif tn = .ok k)
    (hp : fromPSBT (hexDecode hex) = .ok c)
    (hnm : ∀ j, j < c.inputs.length →
      inputMatches c (p2wpkhScript (C.hash160 (C.derivePublicKey k))) j
        (c.inputs.getD j ⟨[]⟩) = false) :
    sign_transaction C hex wif tn = .failure .noMatchingInput := by
  have hcnt : countMatches c (p2wpkhScript (C.hash160 (C.derivePublicKey k))) 0 c.inputs
      = 0 :=
    countMatches_eq_zero c _ c.inputs 0 (by simpa using hnm)
  unfold sign_transaction signPipeline
  rw [hv, hw, hp]
  simp only [signPsbt, Except.bind, Bind.bind, Except.map, Functor.map]
  rw [if_pos hcnt]

/-- C2: when signing succeeds, `sign_transaction` returns the hex of
the re-serialized signed container, and the serialized output is
byte-identical to the input PSBT outside the matched input maps: the
input hex's bytes decompose into the magic, the global map's bytes,
each input map's bytes and each output map's bytes in order; the output
hex decodes to the same decomposition in which the global map's bytes,
every output map's byte range and every non-matched input map's byte
range are unchanged, input count preserved. -/
theorem sign_preserves_untouched (C : Crypto) (hex wif : String) (tn : Bool)
    (k : Bytes) (c c' : PsbtContainer)
    (hv : validateHex hex none = .ok ())
    (hw : importWif wif tn = .ok k)
    (hp : fromPSBT (hexDecode hex) = .ok c)
    (hs : signPsbt C k c = .ok c') :
    sign_transaction C hex wif tn = .success (hexEncode (toPSBT c'))
      ∧ hexDecode hex = psbtMagic ++ serMap c.globalMap
          ++ ((c.inputs.map serMap).flatten ++ (c.outputs.map serMap).flatten)
      ∧ hexDecode (hexEncode (toPSBT c')) = psbtMagic ++ serMap c'.globalMap
          ++ ((c'.inputs.map serMap).flatten ++ (c'.outputs.map serMap).flatten)
      ∧ serMap c'.globalMap = serMap c.globalMap
      ∧ c'.outputs.map serMap = c.outputs.map serMap
      ∧ c'.inputs.length = c.inputs.length
      ∧ ∀ j : Nat,
          inputMatches c (p2wpkhScript (C.hash160 (C.derivePublicKey k))) j
            (c.inputs.getD j ⟨[]⟩) = false →
          (c'.inputs.map serMap).getD j [] = (c.inputs.map serMap).getD j [] := by
  obtain ⟨hshape, hwfc⟩ := fromPSBT_canonical _ c hp (hexDecode_lt hex)
  have hwfc' := WFContainer_signPsbt C k c c' hwfc hs
  obtain ⟨hcnt, heq⟩ := signPsbt_ok C k c c' hs
  have hg : c'.globalMap = c.globalMap := by rw [heq]
  have houts : c'.outputs = c.outputs := by rw [heq]
  have hlen : c'.inputs.length = c.inputs.length := by
    rw [heq]
    exact signInputs_length C k _ _ c 0 c.inputs
  refine ⟨?_, ?_, ?_, by rw [hg], by rw [houts], hlen, ?_⟩
  · unfold sign_transaction signPipeline
    rw [hv, hw, hp]
    simp only [Except.bind, Bind.bind]
    rw [hs]
    rfl
  · rw [hshape, toPSBT_shape]
    simp [List.append_assoc]
  · rw [hexDecode_hexEncode _ (toPSBT_lt c' hwfc'), toPSBT_shape]
    simp [List.append_assoc]
  · intro j hj
    have hunt : c'.inputs.getD j ⟨[]⟩ = c.inputs.getD j ⟨[]⟩ := by
      rw [heq]
      exact signInputs_getD_unmatched C k _ _ c c.inputs 0 j (by simpa using hj)
    rw [getD_map_serMap, getD_map_serMap, hlen, hunt]

/-- Signing the signed container again with the same key succeeds and
returns the very same container: an existing partial signature for the
same public key is never overwritten. -/
theorem signPsbt_idem (C : Crypto) (k : Bytes) (c c' : PsbtContainer)
    (hs : signPsbt C k c = .ok c') :
    signPsbt C k c' = .ok c' := by
  obtain ⟨hcnt, heq⟩ := signPsbt_ok C k c c' hs
  have hg : c'.globalMap = c.globalMap := by rw [heq]
  have houts : c'.outputs = c.outputs := by rw [heq]
  have hins : c'.inputs = signInputs C k (C.derivePublicKey k)
      (p2wpkhScript (C.hash160 (C.derivePublicKey k))) c 0 c.inputs := by rw [heq]
  unfold signPsbt
  rw [hins, countMatches_signInputs C k _ _ c c' hg, if_neg hcnt,
    signInputs_idem C k _ _ c c' hg, hg, houts, heq]

/-- C3: signing is idempotent for a fixed key — whenever
`sign_transaction` succeeds, feeding its output PSBT hex back into the
tool with the same WIF key and network flag succeeds and returns the
very same hex, and the container parsed back from that output has no
duplicate entry in any input map: an existing partial signature for
the same public key is never overwritten, so no duplicate
partial-signature entry arises. -/
theorem sign_transaction_idempotent (C : Crypto) (hex wif : String) (tn : Bool)
    (out : String)
    (h : sign_transaction C hex wif tn = .success out) :
    sign_transaction C out wif tn = .success out
      ∧ ∀ c2, fromPSBT (hexDecode out) = .ok c2 →
          ∀ m ∈ c2.inputs, hasDupKeys m.entries = false := by
  have hsp : signPipeline C hex wif tn = .ok out := by
    unfold sign_transaction at h
    cases hq : signPipeline C hex wif tn with
    | ok s => rw [hq] at h; dsimp only at h; cases h; rfl
    | error e => rw [hq] at h; dsimp only at h; cases h
  obtain ⟨k, c, c', hv, hw, hp, hs, rfl⟩ := signPipeline_ok C hex wif tn out hsp
  obtain ⟨-, hwfc⟩ := fromPSBT_canonical _ c hp (hexDecode_lt hex)
  have hwfc' := WFContainer_signPsbt C k c c' hwfc hs
  have hfrom : fromPSBT (hexDecode (hexEncode (toPSBT c'))) = .ok c' := by
    rw [hexDecode_hexEncode _ (toPSBT_lt c' hwfc')]
    exact fromPSBT_toPSBT c' hwfc'
  constructor
  · have hsign : signPsbt C k c' = .ok c' := signPsbt_idem C k c c' hs
    unfold sign_transaction signPipeline
    rw [validateHex_hexEncode, hw, hfrom]
    simp only [Except.bind, Bind.bind]
    rw [hsign]
    rfl
  · intro c2 hc2 m hm
    rw [hfrom] at hc2
    have hcc : c2 = c' := (Except.ok.inj hc2).symm
    subst hcc
    exact (hwfc'.2.1 m hm).2

/-- C4: `sign_transaction` never finalizes — every entry of every
returned input map is either an entry of the corresponding original
map or a partial-signature record for the signing key's public key; in
particular, when no input map of the parsed PSBT carries a final
scriptWitness record, none of the returned input maps does either, so
other co-signers can still contribute. -/
theorem sign_never_finalizes (C : Crypto) (k : Bytes) (c c' : PsbtContainer)
    (hs : signPsbt C k c = .ok c') :
    (∀ m' ∈ c'.inputs, ∀ e ∈ m'.entries,
        (∃ m ∈ c.inputs, e ∈ m.entries) ∨ e.1 = partialSigKey (C.derivePublicKey k))
      ∧ ((∀ m ∈ c.inputs, hasFinalScriptWitness m = false) →
          ∀ m' ∈ c'.inputs, hasFinalScriptWitness m' = false) := by
  obtain ⟨-, rfl⟩ := signPsbt_ok C k c c' hs
  constructor
  · intro m' hm' e he
    obtain ⟨m, hm, hcase⟩ := signInputs_mem C k _ _ c c.inputs 0 m' hm'
    rcases hcase with heq | ⟨sig, heq⟩
    · rw [heq] at he
      exact Or.inl ⟨m, hm, he⟩
    · rw [heq] at he
      rcases mem_insertPartialSig _ _ _ _ he with h | h
      · exact Or.inl ⟨m, hm, h⟩
      · exact Or.inr h
  · intro hnone m' hm'
    obtain ⟨m, hm, hcase⟩ := signInputs_mem C k _ _ c c.inputs 0 m' hm'
    rcases hcase with heq | ⟨sig, heq⟩
    · rw [heq]
      exact hnone m hm
    · rw [heq, hasFinalScriptWitness_insert]
      exact hnone m hm

/-- C5: every error arising in either tool's fallible pipeline is
caught at the tool boundary and surfaces as a structured failure
result, and every pipeline success surfaces as a success result — the
handlers are total, so nothing is ever thrown past the boundary. -/
theorem errors_caught_at_boundary (C : Crypto) (hex wif : String) (tn : Bool) :
    ((∃ s, signPipeline C hex wif tn = .ok s ∧ sign_transaction C hex wif tn = .success s)
      ∨ (∃ e, signPipeline C hex wif tn = .error e
          ∧ sign_transaction C hex wif tn = .failure e))
    ∧ ((∃ a, addrPipeline C wif tn = .ok a ∧ generate_address C wif tn = .success a)
      ∨ (∃ e, addrPipeline C wif tn = .error e
          ∧ generate_address C wif tn = .failure e)) := by
  constructor
  · cases h : signPipeline C hex wif tn with
    | error e => exact Or.inr ⟨e, rfl, by unfold sign_transaction; rw [h]⟩
    | ok s => exact Or.inl ⟨s, rfl, by unfold sign_transaction; rw [h]⟩
  · cases h : addrPipeline C wif tn with
    | error e => exact Or.inr ⟨e, rfl, by unfold generate_address; rw [h]⟩
    | ok a => exact Or.inl ⟨a, rfl, by unfold generate_address; rw [h]⟩

/-- C6: WIF import rejects bad keys, and both tools surface the
rejection as a structured failure.  First part: when the base58-decoded
bytes' trailing 4-byte checksum differs from the double SHA-256 of the
payload, the import fails with `InvalidChecksum`.  Second part: when the
checksum is right but the version byte is the mainnet prefix `0x80`
while `testnet = true` — or the testnet prefix `0xEF` while
`testnet = false` — the import fails with `NetworkMismatch`.  In each
case `generate_address` fails with that error, and so does
`sign_transaction` (shown with the empty PSBT-hex argument, which
passes the hex validation that runs first). -/
theorem importWif_rejects_bad_keys :
    (∀ (C : Crypto) (wif : String) (tn : Bool) (full : Bytes),
        base58Decode wif = some full → 5 ≤ full.length →
        full.drop (full.length - 4) ≠ (dsha256 (full.take (full.length - 4))).take 4 →
        importWif wif tn = .error .invalidChecksum
          ∧ generate_address C wif tn = .failure .invalidChecksum
          ∧ sign_transaction C "" wif tn = .failure .invalidChecksum)
    ∧ (∀ (C : Crypto) (wif : String) (full : Bytes),
        base58Decode wif = some full → 5 ≤ full.length →
        full.drop (full.length - 4) = (dsha256 (full.take (full.length - 4))).take 4 →
        (full.head? = some 0x80 →
            importWif wif true = .error .networkMismatch
              ∧ generate_address C wif true = .failure .networkMismatch
              ∧ sign_transaction C "" wif true = .failure .networkMismatch)
          ∧ (full.head? = some 0xEF →
            importWif wif false = .error .networkMismatch
              ∧ generate_address C wif false = .failure .networkMismatch
              ∧ sign_transaction C "" wif false = .failure .networkMismatch)) := by
  have hprop : ∀ (C : Crypto) (wif : String) (tn : Bool) (e : SignError),
      importWif wif tn = .error e →
      generate_address C wif tn = .failure e ∧ sign_transaction C "" wif tn = .failure e := by
    intro C wif tn e hi
    constructor
    · unfold generate_address addrPipeline
      rw [hi]
      rfl
    · unfold sign_transaction signPipeline
      rw [show validateHex "" none = .ok () from by decide, hi]
      rfl
  have hmismatch : ∀ (wif : String) (tn : Bool) (v : Nat) (full : Bytes),
      base58Decode wif = some full → 5 ≤ full.length →
      full.drop (full.length - 4) = (dsha256 (full.take (full.length - 4))).take 4 →
      full.head? = some v → v ≠ wifVersion tn →
      importWif wif tn = .error .networkMismatch := by
    intro wif tn v full hb hlen hck hhead hv
    unfold importWif
    rw [hb]
    simp only
    rw [if_neg (by omega)]
    rw [if_neg (by rw [hck]; exact fun h => h rfl)]
    cases full with
    | nil => simp at hhead
    | cons v0 rest =>
      have hv0 : v0 = v := by simpa using hhead
      subst hv0
      have htake : (v0 :: rest).take ((v0 :: rest).length - 4)
          = v0 :: rest.take ((v0 :: rest).length - 5) := by
        have h5 : (v0 :: rest).length - 4 = ((v0 :: rest).length - 5) + 1 := by
          simp only [List.length_cons] at hlen ⊢
          omega
        rw [h5, List.take_succ_cons]
      rw [htake]
      dsimp only
      rw [if_pos hv]
  constructor
  · intro C wif tn full hb hlen hck
    have hi : importWif wif tn = .error .invalidChecksum := by
      unfold importWif
      rw [hb]
      simp only
      rw [if_neg (by omega)]
      rw [if_pos hck]
    exact ⟨hi, hprop C wif tn _ hi⟩
  · intro C wif full hb hlen hck
    constructor
    · intro hhead
      have hi := hmismatch wif true 0x80 full hb hlen hck hhead (by decide)
      exact ⟨hi, hprop C wif true _ hi⟩
    · intro hhead
      have hi := hmismatch wif false 0xEF full hb hlen hck hhead (by decide)
      exact ⟨hi, hprop C wif false _ hi⟩

/-- C7: for every WIF that imports successfully as a testnet key,
`generate_address` with `testnet = true` succeeds, and the returned
address starts with `tb1q` (the human-readable part `tb`, the
separator, and the bech32 spelling `q` of witness version 0) and is 42
characters long. -/
theorem generate_address_testnet_shape (C : Crypto) (wif : String) (k : Bytes)
    (hw : importWif wif true = .ok k) :
    ∃ a, generate_address C wif true = .success a
      ∧ a.data.take 4 = ['t', 'b', '1', 'q'] ∧ a.length = 42 := by
  refine ⟨segwitAddress ['t', 'b'] 0 (C.hash160 (C.derivePublicKey k)), ?_,
    segwitAddress_tb_take4 _, segwitAddress_tb_length _ (C.hash160_length _)⟩
  unfold generate_address addrPipeline
  rw [hw]
  rfl

/-- C8: both tools are deterministic — with all cryptographic
primitives (deterministic RFC6979 nonces included) and the
parsing/serialization pipeline modelled as functions, two invocations on
the same inputs return identical results. -/
theorem tools_deterministic (C : Crypto) (hex wif : String) (tn : Bool) :
    generate_address C wif tn = generate_address C wif tn
      ∧ sign_transaction C hex wif tn = sign_transaction C hex wif tn :=
  ⟨rfl, rfl⟩

/-- C9: a psbtHex string of odd length, or containing a character
outside `[0-9a-fA-F]`, makes `sign_transaction` return the structured
failure `InvalidEncoding` — the hex validator runs first, before the
key import and before any PSBT processing, so this holds for every key
and network flag. -/
theorem sign_transaction_rejects_malformed_hex (C : Crypto) (hex wif : String) (tn : Bool)
    (h : hex.length % 2 = 1 ∨ hex.data.all isHexDigitCh = false) :
    sign_transaction C hex wif tn = .failure .invalidEncoding := by
  have hv : validateHex hex none = .error .invalidEncoding := by
    unfold validateHex
    rcases h with h | h
    · rw [if_pos (by omega)]
    · by_cases h2 : hex.length % 2 ≠ 0
      · rw [if_pos h2]
      · rw [if_neg h2]
        simp [h]
  unfold sign_transaction signPipeline
  rw [hv]
  rfl

/-- C10: the empty string passes the source's hex validation (even
length, empty regex match), so calling `sign_transaction` with
`psbtHex = ""` and any importable key fails at PSBT container parsing —
with the structured failure `MalformedContainer`, not at hex
validation. -/
theorem empty_hex_reaches_container_parse :
    validateHex "" none = .ok ()
      ∧ ∀ (C : Crypto) (wif : String) (tn : Bool) (k : Bytes),
          importWif wif tn = .ok k →
          sign_transaction C "" wif tn = .failure .malformedContainer := by
  refine ⟨by decide, ?_⟩
  intro C wif tn k hw
  unfold sign_transaction signPipeline
  rw [show validateHex "" none = .ok () from by decide, hw,
    show fromPSBT (hexDecode "") = .error .malformedContainer from by decide]
  rfl

/-! ## Evaluation witnesses

Each theorem with hypotheses, applied at an explicit concrete input
with its hypotheses checked by evaluation. -/

set_option maxRecDepth 1000000 in
/-- C1 at a concrete two-input PSBT — one input carries a witness UTXO,
the other a full previous transaction, and neither spent script is the
key's P2WPKH program — and a concrete valid testnet WIF: the call fails
with `NoMatchingInput`. -/
theorem sign_transaction_no_matching_input_witness :
    sign_transaction cryptoA wNoMatchHex
      "cN9spWsvaxA8taS7DFMxnk1yJD2gaF2PX1npuTpy3vuZFJdwavaw" true
      = .failure .noMatchingInput :=
  sign_transaction_no_matching_input cryptoA wNoMatchHex
    "cN9spWsvaxA8taS7DFMxnk1yJD2gaF2PX1npuTpy3vuZFJdwavaw" true
    (List.replicate 32 0x11) wNoMatchContainer
    (by decide) (by decide) (by decide) (by decide)

/-- C4 at the concrete fixture whose input matches through its full
previous transaction: only partial-signature records were added and no
final scriptWitness appears. -/
theorem sign_never_finalizes_witness :
    (∀ m' ∈ wMatchSigned.inputs, ∀ e ∈ m'.entries,
        (∃ m ∈ wMatchContainer.inputs, e ∈ m.entries)
          ∨ e.1 = partialSigKey (cryptoA.derivePublicKey [0x11]))
      ∧ ((∀ m ∈ wMatchContainer.inputs, hasFinalScriptWitness m = false) →
          ∀ m' ∈ wMatchSigned.inputs, hasFinalScriptWitness m' = false) :=
  sign_never_finalizes cryptoA [0x11] wMatchContainer wMatchSigned (by decide)

set_option maxRecDepth 1000000 in
/-- C2 at the concrete matching fixture: the tool returns the signed
serialization, both hex strings decompose into the maps' byte ranges,
and the global map's, the output map's and every non-matched input
map's ranges are unchanged. -/
theorem sign_preserves_untouched_witness :
    sign_transaction cryptoA wMatchHex
        "cN9spWsvaxA8taS7DFMxnk1yJD2gaF2PX1npuTpy3vuZFJdwavaw" true
        = .success (hexEncode (toPSBT wMatchSigned))
      ∧ hexDecode wMatchHex = psbtMagic ++ serMap wMatchContainer.globalMap
          ++ ((wMatchContainer.inputs.map serMap).flatten
            ++ (wMatchContainer.outputs.map serMap).flatten)
      ∧ hexDecode (hexEncode (toPSBT wMatchSigned))
          = psbtMagic ++ serMap wMatchSigned.globalMap
          ++ ((wMatchSigned.inputs.map serMap).flatten
            ++ (wMatchSigned.outputs.map serMap).flatten)
      ∧ serMap wMatchSigned.globalMap = serMap wMatchContainer.globalMap
      ∧ wMatchSigned.outputs.map serMap = wMatchContainer.outputs.map serMap
      ∧ wMatchSigned.inputs.length = wMatchContainer.inputs.length
      ∧ ∀ j : Nat,
          inputMatches wMatchContainer
            (p2wpkhScript (cryptoA.hash160
              (cryptoA.derivePublicKey (List.replicate 32 0x11)))) j
            (wMatchContainer.inputs.getD j ⟨[]⟩) = false →
          (wMatchSigned.inputs.map serMap).getD j []
            = (wMatchContainer.inputs.map serMap).getD j [] :=
  sign_preserves_untouched cryptoA wMatchHex
    "cN9spWsvaxA8taS7DFMxnk1yJD2gaF2PX1npuTpy3vuZFJdwavaw" true
    (List.replicate 32 0x11) wMatchContainer wMatchSigned
    (by decide) (by decide) (by decide) (by decide)

set_option maxRecDepth 1000000 in
/-- C3 at the concrete matching fixture: signing the fixture yields
`wSignedHex`, and feeding `wSignedHex` back through the tool with the
same key returns it unchanged. -/
theorem sign_transaction_idempotent_witness :
    sign_transaction cryptoA wMatchHex
        "cN9spWsvaxA8taS7DFMxnk1yJD2gaF2PX1npuTpy3vuZFJdwavaw" true
        = .success wSignedHex
      ∧ sign_transaction cryptoA wSignedHex
          "cN9spWsvaxA8taS7DFMxnk1yJD2gaF2PX1npuTpy3vuZFJdwavaw" true
          = .success wSignedHex :=
  ⟨by decide,
   (sign_transaction_idempotent cryptoA wMatchHex
      "cN9spWsvaxA8taS7DFMxnk1yJD2gaF2PX1npuTpy3vuZFJdwavaw" true wSignedHex
      (by decide)).1⟩

set_option maxRecDepth 1000000 in
/-- C6 at concrete WIF strings: a corrupted checksum yields
`InvalidChecksum`, and a valid mainnet WIF used with `testnet = true`
yields `NetworkMismatch`. -/
theorem importWif_rejects_bad_keys_witness :
    importWif "cN9spWsvaxA8taS7DFMxnk1yJD2gaF2PX1npuTpy3vuZFJhEqKwR" true
        = .error .invalidChecksum
      ∧ importWif "KwntMbt59tTsj8xqpqYqRRWufyjGunvhSyeMo3NTYpFYzZbXJ5Hp" true
        = .error .networkMismatch :=
  ⟨(importWif_rejects_bad_keys.1 cryptoA
      "cN9spWsvaxA8taS7DFMxnk1yJD2gaF2PX1npuTpy3vuZFJhEqKwR" true wBadWifBytes
      (by decide) (by decide) (by decide)).1,
   ((importWif_rejects_bad_keys.2 cryptoA
      "KwntMbt59tTsj8xqpqYqRRWufyjGunvhSyeMo3NTYpFYzZbXJ5Hp" wMainWifBytes
      (by decide) (by decide) (by decide)).1 (by decide)).1⟩

set_option maxRecDepth 1000000 in
/-- C7 at a concrete valid testnet WIF. -/
theorem generate_address_testnet_shape_witness :
    ∃ a, generate_address cryptoA
        "cN9spWsvaxA8taS7DFMxnk1yJD2gaF2PX1npuTpy3vuZFJdwavaw" true
        = .success a ∧ a.data.take 4 = ['t', 'b', '1', 'q'] ∧ a.length = 42 :=
  generate_address_testnet_shape cryptoA
    "cN9spWsvaxA8taS7DFMxnk1yJD2gaF2PX1npuTpy3vuZFJdwavaw"
    (List.replicate 32 0x11) (by decide)

/-- C9 at the concrete malformed hex string `xyz` (odd length and
non-hex characters). -/
theorem sign_transaction_rejects_malformed_hex_witness :
    sign_transaction cryptoA "xyz" "w" true = .failure .invalidEncoding :=
  sign_transaction_rejects_malformed_hex cryptoA "xyz" "w" true (by decide)

set_option maxRecDepth 1000000 in
/-- C10 at a concrete valid testnet WIF: the empty hex string passes
validation and the failure is the container parser's. -/
theorem empty_hex_reaches_container_parse_witness :
    validateHex "" none = .ok ()
      ∧ sign_transaction cryptoA ""
          "cN9spWsvaxA8taS7DFMxnk1yJD2gaF2PX1npuTpy3vuZFJdwavaw" true
          = .failure .malformedContainer :=
  ⟨empty_hex_reaches_container_parse.1,
   empty_hex_reaches_container_parse.2 cryptoA
     "cN9spWsvaxA8taS7DFMxnk1yJD2gaF2PX1npuTpy3vuZFJdwavaw" true
     (List.replicate 32 0x11) (by decide)⟩

end McpTaproot
